import Mathlib

/-!
# simple-http-client-go: a verification development of `httpclient.go`

The program reads a JSON batch of HTTP requests from the environment variable `PAYLOAD`,
decodes it with a streaming `json.Decoder` (`parsePayload`), and fires one goroutine per
request (`main`), each of which builds and sends the request (`Client`) and prints the
possibly gunzipped response body (`Request`).

The embedding is layered as the program is:

* `encoding/json`: a scanner (`scan`), the value grammar (`readValue`), the streaming
  decoder (`Decoder.Token`, `Decoder.More`, `Decoder.Decode`) and the reflection-driven
  store into `RequestSchema` (`unmarshal`);
* `net/http`: header canonicalisation and `Header.Set`, request construction, and the
  round trip, the latter two taken from an environment `Env`;
* the four functions of `httpclient.go` itself;
* goroutines and `sync.WaitGroup` as a step relation on a process state.

Go panics are values of `Outcome.panic`.

What the model leaves open or out:

* the payload is Unicode text, that is, a Go string that is valid UTF-8;
* a `float64` is represented by the literal it comes from, and whether
  `strconv.ParseFloat` reports a range error for a literal is taken from the environment;
* the nesting of a JSON value is not limited (`encoding/json` rejects a value nested
  deeper than 10000 since Go 1.15);
* time is not modelled: the round trip, with its timeouts, is a function of the
  environment, and so are `gzip.NewReader` and the reading of a gzip stream;
* the order in which `range` visits a map is taken from the environment.
-/

namespace HttpClient

/-! ## Results of Go calls -/

/-- The error values the program can observe. -/
inductive GoError where
  /-- Value `io.EOF`: the input ended before a token or value began. -/
  | eof
  /-- A `json.SyntaxError` or `io.ErrUnexpectedEOF` of the scanner. -/
  | syntaxError
  /-- A `json.UnmarshalTypeError`: a JSON value does not fit the Go type it is stored in. -/
  | unmarshalType
  /-- The error of `http.NewRequest` (invalid method or unparsable URL). -/
  | newRequest
  /-- The error of `http.Client.Do` (dial, TLS, timeout, protocol). -/
  | transport
  /-- The error of `gzip.NewReader` (bad gzip header). -/
  | gzipHeader
  /-- The error of `ioutil.ReadAll` (broken stream, corrupt gzip data). -/
  | read
  deriving DecidableEq

/-- What a Go panic carries. -/
inductive PanicValue where
  /-- The call `panic(err)` with an error value. -/
  | error (e : GoError)
  /-- The call `panic("Payload empty")` of `main`. -/
  | payloadEmpty
  /-- The run-time panic of a failed type assertion `x.(T)`. -/
  | typeAssertion
  deriving DecidableEq

/-- A Go call either returns or panics. -/
inductive Outcome (α : Type) where
  | ok (a : α)
  | panic (p : PanicValue)
  deriving DecidableEq

/-! ## `encoding/json`: scanner -/

/-- The syntax tree of one JSON value. Number literals are kept as written. -/
inductive JSON where
  | null
  | bool (b : Bool)
  | num (lit : String)
  | str (s : String)
  | arr (elems : List JSON)
  | obj (members : List (String × JSON))

/-- The lexical items of a JSON text. `bad` marks the place where the scanner reports a
syntax error (or an unexpected end of input); nothing follows it. -/
inductive Tok where
  | lbrack | rbrack | lbrace | rbrace | comma | colon
  | str (s : String)
  | num (lit : String)
  | tru | fls | nul
  | bad
  deriving DecidableEq

/-- States of the number automaton of `scanner.go` (`stateNeg`, `state0`, `state1`,
`stateDot`, `stateDot0`, `stateE`, `stateESign`, `stateE0`). -/
inductive NumState where
  | neg | zero | int | dot | frac | e | esign | exp
  deriving DecidableEq

/-- States of the scanner between and inside lexical items. The string states carry the
decoded characters read so far, most recent first; the `hi` variants carry a pending
UTF-16 high surrogate that came from a `\u` escape. -/
inductive Lx where
  | idle
  | lit (rest : List Char) (t : Tok)
  | num (st : NumState) (acc : List Char)
  | str (acc : List Char)
  | esc (acc : List Char)
  | uni (acc : List Char) (k : Nat) (v : Nat)
  | strHi (acc : List Char) (hi : Nat)
  | escHi (acc : List Char) (hi : Nat)
  | uniHi (acc : List Char) (hi : Nat) (k : Nat) (v : Nat)

/-- Function `isSpace` of `scanner.go`. -/
def isSpace (c : Char) : Bool :=
  c = ' ' || c = '\t' || c = '\r' || c = '\n'

/-- Decimal digit test. -/
def isDigit (c : Char) : Bool := '0' ≤ c && c ≤ '9'

/-- Value of a hexadecimal digit, as `getu4` reads it. -/
def hexVal (c : Char) : Option Nat :=
  if '0' ≤ c && c ≤ '9' then some (c.toNat - '0'.toNat)
  else if 'a' ≤ c && c ≤ 'f' then some (c.toNat - 'a'.toNat + 10)
  else if 'A' ≤ c && c ≤ 'F' then some (c.toNat - 'A'.toNat + 10)
  else none

/-- The Unicode replacement character, `unicode.ReplacementChar`. -/
def replacementChar : Char := Char.ofNat 0xFFFD

/-- Whether the number automaton may stop in this state. -/
def NumState.accepting : NumState → Bool
  | .zero | .int | .frac | .exp => true
  | _ => false

/-- One transition of the number automaton; `none` when the character does not continue
the literal. -/
def NumState.next (st : NumState) (c : Char) : Option NumState :=
  match st with
  | .neg => if c = '0' then some .zero else if isDigit c then some .int else none
  | .zero => if c = '.' then some .dot else if c = 'e' || c = 'E' then some .e else none
  | .int =>
    if isDigit c then some .int
    else if c = '.' then some .dot else if c = 'e' || c = 'E' then some .e else none
  | .dot => if isDigit c then some .frac else none
  | .frac => if isDigit c then some .frac else if c = 'e' || c = 'E' then some .e else none
  | .e => if c = '+' || c = '-' then some .esign else if isDigit c then some .exp else none
  | .esign => if isDigit c then some .exp else none
  | .exp => if isDigit c then some .exp else none

/-- The scanner at the beginning of a lexical item (`stateBeginValue` and the
punctuation cases of `stateEndValue`). Returns the items completed and the next state, or
`none` on a syntax error. -/
def idleStep (c : Char) : List Tok × Option Lx :=
  if isSpace c then ([], some .idle)
  else if c = '[' then ([.lbrack], some .idle)
  else if c = ']' then ([.rbrack], some .idle)
  else if c = '{' then ([.lbrace], some .idle)
  else if c = '}' then ([.rbrace], some .idle)
  else if c = ',' then ([.comma], some .idle)
  else if c = ':' then ([.colon], some .idle)
  else if c = '"' then ([], some (.str []))
  else if c = '-' then ([], some (.num .neg [c]))
  else if c = '0' then ([], some (.num .zero [c]))
  else if isDigit c then ([], some (.num .int [c]))
  else if c = 't' then ([], some (.lit ['r', 'u', 'e'] .tru))
  else if c = 'f' then ([], some (.lit ['a', 'l', 's', 'e'] .fls))
  else if c = 'n' then ([], some (.lit ['u', 'l', 'l'] .nul))
  else ([], none)

/-- A completed `\uXXXX` escape with value `v` and no pending surrogate: `unquote` turns a
high surrogate into a pending one, a lone low surrogate into U+FFFD, anything else into
the character itself. -/
def afterU4 (acc : List Char) (v : Nat) : Lx :=
  if 0xD800 ≤ v && v < 0xDC00 then .strHi acc v
  else if 0xDC00 ≤ v && v < 0xE000 then .str (replacementChar :: acc)
  else .str (Char.ofNat v :: acc)

/-- The scanner inside a string literal, after the opening quote. -/
def strStep (acc : List Char) (c : Char) : List Tok × Option Lx :=
  if c = '"' then ([.str (String.mk acc.reverse)], some .idle)
  else if c = '\\' then ([], some (.esc acc))
  else if c.toNat < 0x20 then ([], none)
  else ([], some (.str (c :: acc)))

/-- The scanner after a backslash inside a string literal (`stateInStringEsc`). -/
def escStep (acc : List Char) (c : Char) : List Tok × Option Lx :=
  if c = '"' || c = '\\' || c = '/' then ([], some (.str (c :: acc)))
  else if c = 'b' then ([], some (.str (Char.ofNat 8 :: acc)))
  else if c = 'f' then ([], some (.str (Char.ofNat 12 :: acc)))
  else if c = 'n' then ([], some (.str ('\n' :: acc)))
  else if c = 'r' then ([], some (.str ('\r' :: acc)))
  else if c = 't' then ([], some (.str ('\t' :: acc)))
  else if c = 'u' then ([], some (.uni acc 0 0))
  else ([], none)

/-- One step of the scanner. -/
def lexStep : Lx → Char → List Tok × Option Lx
  | .idle, c => idleStep c
  | .lit [] _, _ => ([], none)
  | .lit (x :: rest) t, c =>
    if c = x then
      (if rest.isEmpty then ([t], some .idle) else ([], some (.lit rest t)))
    else ([], none)
  | .num st acc, c =>
    match st.next c with
    | some st' => ([], some (.num st' (c :: acc)))
    | none =>
      if st.accepting then
        let r := idleStep c
        (.num (String.mk acc.reverse) :: r.1, r.2)
      else ([], none)
  | .str acc, c => strStep acc c
  | .esc acc, c => escStep acc c
  | .uni acc k v, c =>
    match hexVal c with
    | none => ([], none)
    | some d =>
      if k = 3 then ([], some (afterU4 acc (16 * v + d)))
      else ([], some (.uni acc (k + 1) (16 * v + d)))
  | .strHi acc hi, c =>
    if c = '\\' then ([], some (.escHi acc hi)) else strStep (replacementChar :: acc) c
  | .escHi acc hi, c =>
    if c = 'u' then ([], some (.uniHi acc hi 0 0)) else escStep (replacementChar :: acc) c
  | .uniHi acc hi k v, c =>
    match hexVal c with
    | none => ([], none)
    | some d =>
      let v' := 16 * v + d
      if k = 3 then
        (if 0xDC00 ≤ v' && v' < 0xE000 then
          ([], some (.str (Char.ofNat (0x10000 + (hi - 0xD800) * 0x400 + (v' - 0xDC00)) :: acc)))
        else ([], some (afterU4 (replacementChar :: acc) v')))
      else ([], some (.uniHi acc hi (k + 1) v'))

/-- The scanner at the end of the input: a number may end there, anything else that is
unfinished is an unexpected end of input. -/
def lexEnd : Lx → List Tok
  | .idle => []
  | .num st acc => if st.accepting then [.num (String.mk acc.reverse)] else [.bad]
  | _ => [.bad]

/-- Run the scanner over the input. -/
def lexRun : Lx → List Char → List Tok
  | st, [] => lexEnd st
  | st, c :: cs =>
    match lexStep st c with
    | (out, some st') => out ++ lexRun st' cs
    | (out, none) => out ++ [.bad]

/-- The lexical items of a JSON text. -/
def scan (s : String) : List Tok := lexRun .idle s.data

/-! ## `encoding/json`: the value grammar -/

mutual
/-- Read one JSON value off the front of the items; the fuel bounds the number of nested
calls. -/
def pValue : Nat → List Tok → Option (JSON × List Tok)
  | 0, _ => none
  | n + 1, ts =>
    match ts with
    | .str s :: r => some (.str s, r)
    | .num l :: r => some (.num l, r)
    | .tru :: r => some (.bool true, r)
    | .fls :: r => some (.bool false, r)
    | .nul :: r => some (.null, r)
    | .lbrack :: .rbrack :: r => some (.arr [], r)
    | .lbrack :: r =>
      match pArr n r with
      | some (vs, r') => some (.arr vs, r')
      | none => none
    | .lbrace :: .rbrace :: r => some (.obj [], r)
    | .lbrace :: r =>
      match pObj n r with
      | some (ms, r') => some (.obj ms, r')
      | none => none
    | _ => none
/-- Read the elements of a non-empty array, after `[` or `,`, up to and including `]`. -/
def pArr : Nat → List Tok → Option (List JSON × List Tok)
  | 0, _ => none
  | n + 1, ts =>
    match pValue n ts with
    | some (v, .rbrack :: r) => some ([v], r)
    | some (v, .comma :: r) =>
      match pArr n r with
      | some (vs, r') => some (v :: vs, r')
      | none => none
    | _ => none
/-- Read the members of a non-empty object, after `{` or `,`, up to and including `}`. -/
def pObj : Nat → List Tok → Option (List (String × JSON) × List Tok)
  | 0, _ => none
  | n + 1, ts =>
    match ts with
    | .str k :: .colon :: ts' =>
      match pValue n ts' with
      | some (v, .rbrace :: r) => some ([(k, v)], r)
      | some (v, .comma :: r) =>
        match pObj n r with
        | some (ms, r') => some ((k, v) :: ms, r')
        | none => none
      | _ => none
    | _ => none
end

/-- Method `Decoder.readValue`: the extent of the next complete JSON value. Twice the
number of items is fuel enough for any nesting (`pAll_fuel`). -/
def readValue (ts : List Tok) : Option (JSON × List Tok) :=
  pValue (2 * ts.length) ts

/-- A whole JSON document, as `json.Unmarshal` and `json.Valid` accept it: one value and
nothing but white space after it. -/
def parseDocument (s : String) : Option JSON :=
  match readValue (scan s) with
  | some (v, []) => some v
  | _ => none

/-! ## Go values and the environment -/

/-- The dynamic values `encoding/json` stores in an `interface{}`: `nil`, `bool`,
`float64`, `string`, `[]interface{}` and `map[string]interface{}`. A `float64` is
represented by the literal it was converted from (the program never computes with it); a
map by its entries, with distinct keys, in the order the keys were first inserted. -/
inductive GoValue where
  | nil
  | bool (b : Bool)
  | float64 (lit : String)
  | string (s : String)
  | slice (elems : List GoValue)
  | map (entries : List (String × GoValue))

/-- A byte. -/
abbrev Byte := Fin 256

/-- An `http.Header`: canonical header names with their value lists. -/
abbrev Header := List (String × List String)

/-- The outgoing `*http.Request`, as far as the program determines it. -/
structure HttpRequest where
  Method : String
  Url : String
  Header : Header
  Body : String
  deriving DecidableEq

/-- The stream `resp.Body`: the bytes it delivers and, if it breaks, the error it ends
with in place of the end of the stream. -/
structure BodyStream where
  data : List Byte
  err : Option GoError
  deriving DecidableEq

/-- The `*http.Response` as the program reads it. -/
structure Response where
  Header : Header
  Body : BodyStream
  deriving DecidableEq

/-- What the program takes from its libraries and from the network without fixing it. -/
structure Env where
  /-- Whether `strconv.ParseFloat(lit, 64)` reports a range error for a JSON number. -/
  floatRangeError : String → Bool
  /-- Whether `http.NewRequest` rejects the method or the URL. -/
  newRequestError : String → String → Bool
  /-- The round trip `netClient.Do(req)`, within its timeouts. -/
  roundTrip : HttpRequest → Except GoError Response
  /-- The order in which a `range` loop visits the entries of a map. -/
  rangeOrder : List (String × GoValue) → List (String × GoValue)
  /-- A `range` loop visits every entry once. -/
  rangeOrder_perm : ∀ m, (rangeOrder m).Perm m
  /-- Whether `gzip.NewReader` accepts the stream (it reads the gzip header). -/
  gzipNewReader : BodyStream → Bool
  /-- What `ioutil.ReadAll` gives on the gzip reader of the stream. -/
  gzipReadAll : BodyStream → Except GoError (List Byte)

/-! ## `encoding/json`: storing a value -/

/-- Assignment `m[k] = v` on a map. -/
def mapInsert : List (String × GoValue) → String → GoValue → List (String × GoValue)
  | [], k, v => [(k, v)]
  | (k', v') :: m, k, v => if k' = k then (k, v) :: m else (k', v') :: mapInsert m k v

mutual
/-- Method `decodeState.valueInterface`: the Go value for a JSON value stored in an
`interface{}`. A number that `convertNumber` rejects leaves `nil` (and an error, see
`rangeError`). -/
def valueInterface (env : Env) : JSON → GoValue
  | .null => .nil
  | .bool b => .bool b
  | .num l => if env.floatRangeError l then .nil else .float64 l
  | .str s => .string s
  | .arr es => .slice (arrayInterface env es)
  | .obj ms => .map (objectInterface env ms [])
/-- Method `decodeState.arrayInterface`. -/
def arrayInterface (env : Env) : List JSON → List GoValue
  | [] => []
  | j :: js => valueInterface env j :: arrayInterface env js
/-- Method `decodeState.objectInterface`: members are assigned in order, so a repeated
key keeps its last value. -/
def objectInterface (env : Env) :
    List (String × JSON) → List (String × GoValue) → List (String × GoValue)
  | [], m => m
  | (k, j) :: ms, m => objectInterface env ms (mapInsert m k (valueInterface env j))
end

mutual
/-- Whether `convertNumber` fails on some number of the value. -/
def rangeError (env : Env) : JSON → Bool
  | .num l => env.floatRangeError l
  | .arr es => rangeErrorList env es
  | .obj ms => rangeErrorMembers env ms
  | _ => false
/-- Whether `convertNumber` fails on some number of the elements. -/
def rangeErrorList (env : Env) : List JSON → Bool
  | [] => false
  | j :: js => rangeError env j || rangeErrorList env js
/-- Whether `convertNumber` fails on some number of the member values. -/
def rangeErrorMembers (env : Env) : List (String × JSON) → Bool
  | [] => false
  | (_, j) :: ms => rangeError env j || rangeErrorMembers env ms
end

/-- The struct the payload elements are decoded into. -/
structure RequestSchema where
  Method : String
  Url : String
  Headers : GoValue
  Body : String

/-- The zero value of `RequestSchema`, what `var request RequestSchema` declares. -/
def RequestSchema.zero : RequestSchema := ⟨"", "", .nil, ""⟩

/-- The fields of `RequestSchema`. -/
inductive Field where
  | Method | Url | Headers | Body
  deriving DecidableEq

/-- The JSON name of a field, from its struct tag. -/
def Field.name : Field → String
  | .Method => "method"
  | .Url => "url"
  | .Headers => "headers"
  | .Body => "body"

/-- Case folding of one character as `foldName` does it for the comparison with a field
name: ASCII letters go to upper case, and so do the two other characters whose simple
case folding meets ASCII, the long s (U+017F) and the Kelvin sign (U+212A). Every other
character is left alone; its fold is never an ASCII letter, and the field names are
ASCII. -/
def foldChar (c : Char) : Char :=
  if 'a' ≤ c && c ≤ 'z' then Char.ofNat (c.toNat - 32)
  else if c.toNat = 0x17F then 'S'
  else if c.toNat = 0x212A then 'K'
  else c

/-- Function `foldName` of `encoding/json`. -/
def foldName (s : String) : List Char := s.data.map foldChar

/-- The field a key of a JSON object selects: the one with that name, compared under
case folding (the four names stay distinct under folding, so an exact match selects the
same field). -/
def fieldOf (key : String) : Option Field :=
  [Field.Method, Field.Url, Field.Headers, Field.Body].find?
    (fun f => foldName key = foldName f.name)

/-- A struct under decoding, with `decodeState.savedError`. -/
structure DecodeState where
  v : RequestSchema
  savedError : Option GoError

/-- Method `decodeState.saveError`: only the first error is kept. -/
def DecodeState.saveError (d : DecodeState) (e : GoError) : DecodeState :=
  match d.savedError with
  | none => { d with savedError := some e }
  | some _ => d

/-- Store a JSON value in a field of kind `string`: a string is assigned, `null` has no
effect, anything else is an `UnmarshalTypeError`. -/
def storeString (j : JSON) (old : String) : Except GoError String :=
  match j with
  | .str s => .ok s
  | .null => .ok old
  | _ => .error .unmarshalType

/-- Store one member of a JSON object in the struct (the loop body of
`decodeState.object`): an unknown key is skipped, a value that does not fit is recorded
as an error and leaves the field as it was. A value for `Headers`, of type `interface{}`,
always replaces what the field held. -/
def storeMember (env : Env) (d : DecodeState) (m : String × JSON) : DecodeState :=
  match fieldOf m.1 with
  | none => d
  | some .Method =>
    match storeString m.2 d.v.Method with
    | .ok s => { d with v := { d.v with Method := s } }
    | .error e => d.saveError e
  | some .Url =>
    match storeString m.2 d.v.Url with
    | .ok s => { d with v := { d.v with Url := s } }
    | .error e => d.saveError e
  | some .Body =>
    match storeString m.2 d.v.Body with
    | .ok s => { d with v := { d.v with Body := s } }
    | .error e => d.saveError e
  | some .Headers =>
    match m.2 with
    | .num l =>
      if env.floatRangeError l then d.saveError .unmarshalType
      else { d with v := { d.v with Headers := .float64 l } }
    | j =>
      let d' : DecodeState := { d with v := { d.v with Headers := valueInterface env j } }
      if rangeError env j then d'.saveError .unmarshalType else d'

/-- Method `decodeState.unmarshal` with a `*RequestSchema` target: the struct after the
call and the error returned. An object is stored member by member into the struct as it
is; `null` has no effect; any other value is an `UnmarshalTypeError`. -/
def unmarshal (env : Env) (j : JSON) (request : RequestSchema) :
    RequestSchema × Option GoError :=
  match j with
  | .obj ms =>
    let d := ms.foldl (storeMember env) ⟨request, none⟩
    (d.v, d.savedError)
  | .null => (request, none)
  | _ => (request, some .unmarshalType)

/-! ## `encoding/json`: the streaming decoder -/

/-- The token states of `stream.go`. -/
inductive TokenState where
  | topValue | arrayStart | arrayValue | arrayComma
  | objectStart | objectKey | objectColon | objectValue | objectComma
  deriving DecidableEq

/-- A `json.Decoder`: the unread input (`buf[scanp:]` and what the reader still holds),
the token state and the stack of enclosing token states. -/
structure Decoder where
  buf : List Tok
  tokenState : TokenState
  tokenStack : List TokenState
  deriving DecidableEq

/-- Function `json.NewDecoder(strings.NewReader(payload))`. -/
def NewDecoder (payload : String) : Decoder := ⟨scan payload, .topValue, []⟩

/-- Method `Decoder.tokenValueAllowed`. -/
def TokenState.valueAllowed : TokenState → Bool
  | .topValue | .arrayStart | .arrayValue | .objectValue => true
  | _ => false

/-- Method `Decoder.tokenValueEnd`. -/
def TokenState.valueEnd : TokenState → TokenState
  | .arrayStart | .arrayValue => .arrayComma
  | .objectValue => .objectComma
  | st => st

/-- Method `Decoder.More`: there is a next item and it is neither `]` nor `}`. -/
def Decoder.More (dec : Decoder) : Bool :=
  match dec.buf with
  | [] => false
  | .rbrack :: _ => false
  | .rbrace :: _ => false
  | _ => true

/-- Method `Decoder.tokenPrepareForDecode`: between array elements a comma is due, and
after an object key a colon. -/
def Decoder.tokenPrepareForDecode (dec : Decoder) : Except GoError Decoder :=
  match dec.tokenState with
  | .arrayComma =>
    match dec.buf with
    | [] => .error .eof
    | .comma :: r => .ok { dec with buf := r, tokenState := .arrayValue }
    | _ => .error .syntaxError
  | .objectColon =>
    match dec.buf with
    | [] => .error .eof
    | .colon :: r => .ok { dec with buf := r, tokenState := .objectValue }
    | _ => .error .syntaxError
  | _ => .ok dec

/-- The front of `Decoder.Decode`, up to the call of `unmarshal`: the next value and the
decoder after it. -/
def Decoder.nextValue (dec : Decoder) : Except GoError (JSON × Decoder) :=
  match dec.tokenPrepareForDecode with
  | .error e => .error e
  | .ok dec1 =>
    if dec1.tokenState.valueAllowed then
      match dec1.buf with
      | [] => .error .eof
      | _ =>
        match readValue dec1.buf with
        | none => .error .syntaxError
        | some (j, r) => .ok (j, { dec1 with buf := r, tokenState := dec1.tokenState.valueEnd })
    else .error .syntaxError

/-- Method `Decoder.Decode(&request)`: read the next value and store it in `request`. -/
def Decoder.Decode (env : Env) (dec : Decoder) (request : RequestSchema) :
    Except GoError (RequestSchema × Decoder) :=
  match dec.nextValue with
  | .error e => .error e
  | .ok (j, dec') =>
    match unmarshal env j request with
    | (request', none) => .ok (request', dec')
    | (_, some e) => .error e

/-- Method `Decoder.Decode(&x)` with `var x interface{}`. -/
def Decoder.DecodeAny (env : Env) (dec : Decoder) : Except GoError (GoValue × Decoder) :=
  match dec.nextValue with
  | .error e => .error e
  | .ok (j, dec') =>
    if rangeError env j then .error .unmarshalType else .ok (valueInterface env j, dec')

/-- A `json.Token`: a delimiter or a basic value. -/
inductive Token where
  | delim (c : Char)
  | value (v : GoValue)

/-- Method `Decoder.Token` on the decoder in the given token state. -/
def tokenFrom (env : Env) :
    List Tok → TokenState → List TokenState → Except GoError (Token × Decoder)
  | [], _, _ => .error .eof
  | .lbrack :: r, st, stack =>
    if st.valueAllowed then .ok (.delim '[', ⟨r, .arrayStart, st :: stack⟩)
    else .error .syntaxError
  | .rbrack :: r, st, stack =>
    if st = .arrayStart || st = .arrayComma then
      .ok (.delim ']', ⟨r, (stack.headD .topValue).valueEnd, stack.tail⟩)
    else .error .syntaxError
  | .lbrace :: r, st, stack =>
    if st.valueAllowed then .ok (.delim '{', ⟨r, .objectStart, st :: stack⟩)
    else .error .syntaxError
  | .rbrace :: r, st, stack =>
    if st = .objectStart || st = .objectComma then
      .ok (.delim '}', ⟨r, (stack.headD .topValue).valueEnd, stack.tail⟩)
    else .error .syntaxError
  | .colon :: r, st, stack =>
    if st = .objectColon then tokenFrom env r .objectValue stack else .error .syntaxError
  | .comma :: r, st, stack =>
    if st = .arrayComma then tokenFrom env r .arrayValue stack
    else if st = .objectComma then tokenFrom env r .objectKey stack
    else .error .syntaxError
  | t :: r, st, stack =>
    match t, (st = .objectStart || st = .objectKey : Bool) with
    | .str s, true => .ok (.value (.string s), ⟨r, .objectColon, stack⟩)
    | _, _ =>
      if st.valueAllowed then
        match Decoder.DecodeAny env ⟨t :: r, st, stack⟩ with
        | .error e => .error e
        | .ok (x, dec) => .ok (.value x, dec)
      else .error .syntaxError

/-- Method `Decoder.Token`. -/
def Decoder.Token (env : Env) (dec : Decoder) : Except GoError (Token × Decoder) :=
  tokenFrom env dec.buf dec.tokenState dec.tokenStack

/-! ## `httpclient.go`: `parsePayload` -/

/-- The loop `for decoder.More() { decoder.Decode(&request); requests = append(requests,
request) }` of `parsePayload`. The variable `request` is declared before the loop, so
each `Decode` stores into the struct the previous iteration left. Every iteration reads
at least one item of the input; `none` when the fuel is used up before the loop ends. -/
def parsePayloadLoop (env : Env) :
    Nat → Decoder → RequestSchema → List RequestSchema → Option (Outcome (List RequestSchema))
  | 0, _, _, _ => none
  | n + 1, decoder, request, requests =>
    if decoder.More then
      match decoder.Decode env request with
      | .error e => some (.panic (.error e))
      | .ok (request', decoder') =>
        parsePayloadLoop env n decoder' request' (requests ++ [request'])
    else some (.ok requests)

/-- Function `parsePayload`: the requests of the payload, or the panic. -/
def parsePayload (env : Env) (payload : String) : Option (Outcome (List RequestSchema)) :=
  match (NewDecoder payload).Token env with
  | .error e => some (.panic (.error e))
  | .ok (_, decoder) =>
    parsePayloadLoop env (decoder.buf.length + 1) decoder RequestSchema.zero []

/-! ## `net/http`: headers and requests -/

/-- Function `validHeaderFieldByte` of `net/textproto`: the token characters of RFC 7230,
that is letters, digits and the characters with the codes listed. -/
def validHeaderFieldByte (c : Char) : Bool :=
  ('a' ≤ c && c ≤ 'z') || ('A' ≤ c && c ≤ 'Z') || ('0' ≤ c && c ≤ '9') ||
    [33, 35, 36, 37, 38, 39, 42, 43, 45, 46, 94, 95, 96, 124, 126].contains c.toNat

/-- The rewriting loop of `canonicalMIMEHeaderKey`: upper case for the first letter and
for a letter after a dash, lower case for the other letters. -/
def canonicalLetters : Bool → List Char → List Char
  | _, [] => []
  | upper, c :: cs =>
    let c' :=
      if upper && 'a' ≤ c && c ≤ 'z' then Char.ofNat (c.toNat - 32)
      else if !upper && 'A' ≤ c && c ≤ 'Z' then Char.ofNat (c.toNat + 32)
      else c
    c' :: canonicalLetters (c' = '-') cs

/-- Function `textproto.CanonicalMIMEHeaderKey`: a key with a character that is not a
token character is returned unchanged. -/
def CanonicalMIMEHeaderKey (s : String) : String :=
  if s.data.all validHeaderFieldByte then String.mk (canonicalLetters true s.data) else s

/-- Assignment `h[k] = vs` on a header. -/
def headerAssign : Header → String → List String → Header
  | [], k, vs => [(k, vs)]
  | (k', vs') :: h, k, vs => if k' = k then (k, vs) :: h else (k', vs') :: headerAssign h k vs

/-- Method `Header.Set`: the values of the canonical key are replaced by the one value. -/
def Header.Set (h : Header) (key value : String) : Header :=
  headerAssign h (CanonicalMIMEHeaderKey key) [value]

/-- Method `Header.Get`: the first value of the canonical key, or the empty string. -/
def Header.Get (h : Header) (key : String) : String :=
  match h.lookup (CanonicalMIMEHeaderKey key) with
  | some (v :: _) => v
  | _ => ""

/-- Function `http.NewRequest`: an empty method means `GET`, the header starts empty. -/
def NewRequest (env : Env) (method url body : String) : Except GoError HttpRequest :=
  if env.newRequestError method url then .error .newRequest
  else .ok ⟨if method = "" then "GET" else method, url, [], body⟩

/-! ## `httpclient.go`: `Client`, `Request` -/

/-- The body of the loop `for header, value := range ... { req.Header.Set(header,
value.(string)) }` over the entries in the order the loop visits them. The assertion
`value.(string)` panics on a value that is not a string. -/
def setHeaders : List (String × GoValue) → Header → Outcome Header
  | [], h => .ok h
  | (header, .string value) :: rest, h => setHeaders rest (Header.Set h header value)
  | _ :: _, _ => .panic .typeAssertion

/-- The header application of `Client`: the assertion `headers.(map[string]interface{})`
panics unless `headers` holds a map; then the entries are set one by one. -/
def applyHeaders (env : Env) (headers : GoValue) (h : Header) : Outcome Header :=
  match headers with
  | .map m => setHeaders (env.rangeOrder m) h
  | _ => .panic .typeAssertion

/-- What a call of `Client` does: the request it hands to `netClient.Do`, if it gets that
far, and what it returns. -/
structure ClientResult where
  sent : Option HttpRequest
  ret : Outcome (Except GoError Response)

/-- Function `Client`. -/
def Client (env : Env) (method url : String) (headers : GoValue) (body : String) :
    ClientResult :=
  match NewRequest env method url body with
  | .error e => ⟨none, .ok (.error e)⟩
  | .ok req =>
    match applyHeaders env headers req.Header with
    | .panic p => ⟨none, .panic p⟩
    | .ok h => ⟨some { req with Header := h }, .ok (env.roundTrip { req with Header := h })⟩

/-- Function `ioutil.ReadAll` on `resp.Body`. -/
def readAll (b : BodyStream) : Except GoError (List Byte) :=
  match b.err with
  | none => .ok b.data
  | some e => .error e

/-- The part of `Request` after the call of `Client`: pick the reader by the
`Content-Encoding` header, read it to the end, print. The result is the argument of
`fmt.Println`. -/
def handleResponse (env : Env) (resp : Response) : Outcome (List Byte) :=
  if Header.Get resp.Header "Content-Encoding" = "gzip" then
    if env.gzipNewReader resp.Body then
      match env.gzipReadAll resp.Body with
      | .ok responseBytes => .ok responseBytes
      | .error e => .panic (.error e)
    else .panic (.error .gzipHeader)
  else
    match readAll resp.Body with
    | .ok responseBytes => .ok responseBytes
    | .error e => .panic (.error e)

/-- Function `Request`: the body it prints with `fmt.Println`, or the panic. -/
def Request (env : Env) (method url : String) (headers : GoValue) (body : String) :
    Outcome (List Byte) :=
  match (Client env method url headers body).ret with
  | .panic p => .panic p
  | .ok (.error e) => .panic (.error e)
  | .ok (.ok resp) => handleResponse env resp

/-- What `fmt.Println(string(responseBytes))` writes to standard output: the bytes and a
newline. -/
def println (responseBytes : List Byte) : List Byte := responseBytes ++ [10]

/-! ## `httpclient.go`: `main`, goroutines and the wait group -/

/-- Where a goroutine `go func(request) { defer wg.Done(); Request(...) }(request)` is:
started, returned after its deferred `wg.Done()`, or panicking after its deferred
`wg.Done()` with the panic not yet having brought the process down. -/
inductive Phase where
  | started
  | returned
  | panicking (p : PanicValue)
  deriving DecidableEq

/-- A launched goroutine: its argument, its phase and how often it has called
`wg.Done()`. -/
structure Routine where
  request : RequestSchema
  phase : Phase
  doneCalls : Nat

/-- Where the main goroutine is: in the `for` loop or blocked in `wg.Wait()`. -/
inductive MainPc where
  | loop
  | wait
  deriving DecidableEq

/-- Whether the process runs, has exited because `main` returned, or was aborted by an
unrecovered panic. -/
inductive Status where
  | running
  | exited
  | crashed (p : PanicValue)
  deriving DecidableEq

/-- The state of the process. -/
structure Proc where
  status : Status
  pc : MainPc
  /-- The requests the loop of `main` has not reached yet. -/
  pending : List RequestSchema
  /-- The goroutines launched so far, in launch order. -/
  routines : List Routine
  /-- The counter of the `sync.WaitGroup`. -/
  wg : Int
  /-- What was written to standard output, one entry per `fmt.Println`. -/
  stdout : List (List Byte)

/-- The process when `main` enters its loop over `requests`. -/
def Proc.start (requests : List RequestSchema) : Proc :=
  ⟨.running, .loop, requests, [], 0, []⟩

/-- The process aborted by a panic of `main` before the loop. -/
def Proc.aborted (p : PanicValue) : Proc :=
  ⟨.crashed p, .loop, [], [], 0, []⟩

/-- Function `main` up to its loop: the payload is read from the environment variable,
an empty one panics, and so does a payload `parsePayload` panics on. -/
def mainStart (env : Env) (payload : String) : Option Proc :=
  if payload = "" then some (Proc.aborted .payloadEmpty)
  else
    match parsePayload env payload with
    | none => none
    | some (.panic p) => some (Proc.aborted p)
    | some (.ok requests) => some (Proc.start requests)

/-- What a goroutine does with its request. -/
def Routine.run (env : Env) (r : Routine) : Outcome (List Byte) :=
  Request env r.request.Method r.request.Url r.request.Headers r.request.Body

/-- The steps of the process; any interleaving of them is a run.

* `launch`: `wg.Add(1)` and the `go` statement for the next request;
* `loopEnd`: the loop is over, `main` calls `wg.Wait()`;
* `finish`: a goroutine prints its body and returns, its deferred `wg.Done()` runs;
* `fail`: `Request` panics in a goroutine, its deferred `wg.Done()` runs;
* `abort`: the panic, which nothing recovers, aborts the process;
* `join`: the counter is zero, `wg.Wait()` returns, `main` returns and the process exits.

A goroutine that panics runs its deferred call before the process goes down, so `join`
may become enabled between `fail` and `abort`. The Go runtime lets the abort win over the
exit of `main`; the relation leaves the race open and so has every run of the program
among its runs. -/
inductive Step (env : Env) : Proc → Proc → Prop where
  | launch (s : Proc) (request : RequestSchema) (rest : List RequestSchema) :
      s.status = .running → s.pc = .loop → s.pending = request :: rest →
      Step env s { s with
        pending := rest, wg := s.wg + 1, routines := s.routines ++ [⟨request, .started, 0⟩] }
  | loopEnd (s : Proc) :
      s.status = .running → s.pc = .loop → s.pending = [] →
      Step env s { s with pc := .wait }
  | finish (s : Proc) (i : Nat) (r : Routine) (responseBytes : List Byte) :
      s.status = .running → s.routines.get? i = some r → r.phase = .started →
      r.run env = .ok responseBytes →
      Step env s { s with
        stdout := s.stdout ++ [println responseBytes], wg := s.wg - 1,
        routines := s.routines.set i { r with phase := .returned, doneCalls := r.doneCalls + 1 } }
  | fail (s : Proc) (i : Nat) (r : Routine) (p : PanicValue) :
      s.status = .running → s.routines.get? i = some r → r.phase = .started →
      r.run env = .panic p →
      Step env s { s with
        wg := s.wg - 1,
        routines := s.routines.set i { r with phase := .panicking p, doneCalls := r.doneCalls + 1 } }
  | abort (s : Proc) (i : Nat) (r : Routine) (p : PanicValue) :
      s.status = .running → s.routines.get? i = some r → r.phase = .panicking p →
      Step env s { s with status := .crashed p }
  | join (s : Proc) :
      s.status = .running → s.pc = .wait → s.wg = 0 →
      Step env s { s with status := .exited }

/-- The states a run of the process from `s` can be in. -/
inductive Reachable (env : Env) (s : Proc) : Proc → Prop where
  | refl : Reachable env s s
  | step (t u : Proc) : Reachable env s t → Step env t u → Reachable env s u


/-- What the loop of `parsePayload` computes on the elements `js` of an array: each
element is stored into the struct the previous one left, and the struct is appended. -/
def decodeElements (env : Env) :
    List JSON → RequestSchema → List RequestSchema → Outcome (List RequestSchema)
  | [], _, requests => .ok requests
  | j :: js, request, requests =>
    match unmarshal env j request with
    | (request', none) => decodeElements env js request' (requests ++ [request'])
    | (_, some e) => .panic (.error e)

/-- A payload with nothing at its front that a value could start with: it is blank, or
its first item is malformed or is one of `]`, `}`, `,`, `:`. -/
def NoLeadingValue (payload : String) : Prop :=
  match scan payload with
  | [] => True
  | t :: _ => t = .bad ∨ t = .rbrack ∨ t = .rbrace ∨ t = .comma ∨ t = .colon

/-! ## The data model of the specification -/

/-- A Request Specification as the specification gives it: method, URL, a mapping from
header names to string values, and a body. -/
structure RequestSpec where
  method : String
  url : String
  headers : List (String × String)
  body : String

/-- The four members of the request object of a Request Specification. -/
def RequestSpec.members (r : RequestSpec) : List (String × JSON) :=
  [("method", .str r.method), ("url", .str r.url),
    ("headers", .obj (r.headers.map fun kv => (kv.1, .str kv.2))), ("body", .str r.body)]

/-- The struct that carries a Request Specification. -/
def RequestSpec.toSchema (r : RequestSpec) : RequestSchema :=
  ⟨r.method, r.url, .map (r.headers.map fun kv => (kv.1, .string kv.2)), r.body⟩

/-- A JSON value is a request object for `r`: an object that gives method, url, headers
and body of `r`, each once and in any order, the headers being an object of string values
with distinct names. -/
def IsRequestObject (j : JSON) (r : RequestSpec) : Prop :=
  (r.headers.map Prod.fst).Nodup ∧ ∃ ms, j = .obj ms ∧ ms.Perm r.members

/-- The elements of an array decoded one by one, each into a fresh struct. -/
def unmarshalFresh (env : Env) : List JSON → Outcome (List RequestSchema)
  | [] => .ok []
  | j :: js =>
    match unmarshal env j RequestSchema.zero with
    | (request, none) =>
      match unmarshalFresh env js with
      | .ok requests => .ok (request :: requests)
      | .panic p => .panic p
    | (_, some e) => .panic (.error e)

/-- Following the specification, "decoding the whole array at once": the payload is one
JSON document, an array, and every element is decoded into a fresh Request Specification
of a fresh list; a payload that is not such a document, or an element that does not
decode, fails the whole. `none` never occurs; the type is that of `parsePayload`. -/
def unmarshalWholeArray (env : Env) (payload : String) :
    Option (Outcome (List RequestSchema)) :=
  match parseDocument payload with
  | some (.arr elems) => some (unmarshalFresh env elems)
  | some _ => some (.panic (.error .unmarshalType))
  | none => some (.panic (.error .syntaxError))

/-! ## A concrete environment -/

/-- An environment for closed examples: every number is in range; a method with a blank
in it is rejected and nothing else; `http://host/a` answers with a gzip-encoded body,
`http://host/b` with a plain one, any other URL cannot be reached; `range` visits a map
in insertion order; the stand-in for gzip is the two magic bytes followed by the payload
as it is. -/
def Env.demo : Env where
  floatRangeError := fun _ => false
  newRequestError := fun method _ => method.data.contains ' '
  roundTrip := fun req =>
    if req.Url = "http://host/a" then
      .ok ⟨[("Content-Encoding", ["gzip"])], ⟨[31, 139, 104, 105], none⟩⟩
    else if req.Url = "http://host/b" then .ok ⟨[], ⟨[111, 107], none⟩⟩
    else .error .transport
  rangeOrder := fun m => m
  rangeOrder_perm := fun m => List.Perm.refl m
  gzipNewReader := fun b => b.data.take 2 = [31, 139]
  gzipReadAll := fun b => .ok (b.data.drop 2)

/-! ## The invariant of the runs -/

/-- The invariant of the runs of `main` over `requests`: the goroutines launched are
those of the requests the loop has passed; the counter of the wait group is the number of
goroutines that have not called `wg.Done()`; a goroutine has called it once unless it is
still at work; `main` waits only after the loop; the process exits only from the wait
with the counter at zero; every line printed comes from a goroutine that returned; an
abort comes from a panicking goroutine. -/
structure Inv (requests : List RequestSchema) (s : Proc) : Prop where
  launched : s.routines.map (fun r => r.request) ++ s.pending = requests
  counter : s.wg = (s.routines.countP (fun r => r.phase = .started) : Nat)
  calls : ∀ r ∈ s.routines, r.doneCalls = if r.phase = .started then 0 else 1
  waiting : s.pc = .wait → s.pending = []
  joined : s.status = .exited → s.pc = .wait ∧ s.wg = 0
  printed : s.stdout.length = s.routines.countP (fun r => r.phase = .returned)
  crash : ∀ p, s.status = .crashed p → ∃ r ∈ s.routines, r.phase = .panicking p

/-! ## Elements that do not decode -/

/-- A JSON value that a field of kind `string` does not take: anything but a string and
`null`. -/
def badString : JSON → Bool
  | .str _ => false
  | .null => false
  | _ => true

/-- A member of a request object that does not decode: its key selects `method`, `url`
or `body` and its value is neither a string nor `null`, or its key selects `headers` and
its value holds a number outside the range of `float64`. A member with any other key is
skipped, and any other value for `headers` is taken as it is, whatever its type. -/
def badMember (env : Env) (m : String × JSON) : Bool :=
  match fieldOf m.1 with
  | none => false
  | some .Headers => rangeError env m.2
  | some _ => badString m.2

/-- An element of the payload array that does not decode into `RequestSchema`: a string,
a number, a boolean or an array, or an object with a member that does not decode. The
element `null` is not among them. -/
def badElement (env : Env) : JSON → Bool
  | .obj ms => ms.any (badMember env)
  | .null => false
  | _ => true
/-! ## The value grammar: fuel -/

theorem pValue_succ (n : Nat) (ts : List Tok) :
    pValue (n + 1) ts =
      match ts with
      | .str s :: r => some (.str s, r)
      | .num l :: r => some (.num l, r)
      | .tru :: r => some (.bool true, r)
      | .fls :: r => some (.bool false, r)
      | .nul :: r => some (.null, r)
      | .lbrack :: .rbrack :: r => some (.arr [], r)
      | .lbrack :: r =>
        match pArr n r with
        | some (vs, r') => some (.arr vs, r')
        | none => none
      | .lbrace :: .rbrace :: r => some (.obj [], r)
      | .lbrace :: r =>
        match pObj n r with
        | some (ms, r') => some (.obj ms, r')
        | none => none
      | _ => none := by
  rfl

theorem pArr_succ (n : Nat) (ts : List Tok) :
    pArr (n + 1) ts =
      match pValue n ts with
      | some (v, .rbrack :: r) => some ([v], r)
      | some (v, .comma :: r) =>
        match pArr n r with
        | some (vs, r') => some (v :: vs, r')
        | none => none
      | _ => none := by
  rfl

theorem pObj_succ (n : Nat) (ts : List Tok) :
    pObj (n + 1) ts =
      match ts with
      | .str k :: .colon :: ts' =>
        match pValue n ts' with
        | some (v, .rbrace :: r) => some ([(k, v)], r)
        | some (v, .comma :: r) =>
          match pObj n r with
          | some (ms, r') => some ((k, v) :: ms, r')
          | none => none
        | _ => none
      | _ => none := by
  rfl

/-- Every successful read consumes at least one item. -/
theorem pAll_length (n : Nat) :
    (∀ ts v r, pValue n ts = some (v, r) → r.length < ts.length) ∧
    (∀ ts vs r, pArr n ts = some (vs, r) → r.length < ts.length) ∧
    (∀ ts ms r, pObj n ts = some (ms, r) → r.length < ts.length) := by
  induction n with
  | zero => simp [pValue, pArr, pObj]
  | succ n ih =>
    obtain ⟨ihV, ihA, ihO⟩ := ih
    refine ⟨?_, ?_, ?_⟩
    · intro ts v r h
      rw [pValue_succ] at h
      split at h
      case h_7 r' _ =>
        split at h
        · rename_i vs r2 hA
          simp only [Option.some.injEq, Prod.mk.injEq] at h
          obtain ⟨-, rfl⟩ := h
          have := ihA _ _ _ hA
          simp only [List.length_cons]; omega
        · simp at h
      case h_9 r' _ =>
        split at h
        · rename_i ms r2 hO
          simp only [Option.some.injEq, Prod.mk.injEq] at h
          obtain ⟨-, rfl⟩ := h
          have := ihO _ _ _ hO
          simp only [List.length_cons]; omega
        · simp at h
      all_goals simp only [Option.some.injEq, Prod.mk.injEq, reduceCtorEq] at h
      all_goals (obtain ⟨-, rfl⟩ := h; simp only [List.length_cons]; omega)
    · intro ts vs r h
      rw [pArr_succ] at h
      split at h
      · rename_i v r' hV
        simp only [Option.some.injEq, Prod.mk.injEq] at h
        obtain ⟨-, rfl⟩ := h
        have := ihV _ _ _ hV
        simp only [List.length_cons] at this; omega
      · rename_i v r' hV
        have h1 := ihV _ _ _ hV
        split at h
        · rename_i vs' r2 hA
          simp only [Option.some.injEq, Prod.mk.injEq] at h
          obtain ⟨-, rfl⟩ := h
          have := ihA _ _ _ hA
          simp only [List.length_cons] at h1; omega
        · simp at h
      · simp at h
    · intro ts ms r h
      rw [pObj_succ] at h
      split at h
      · rename_i k ts'
        split at h
        · rename_i v r' hV
          simp only [Option.some.injEq, Prod.mk.injEq] at h
          obtain ⟨-, rfl⟩ := h
          have := ihV _ _ _ hV
          simp only [List.length_cons] at this ⊢; omega
        · rename_i v r' hV
          have h1 := ihV _ _ _ hV
          split at h
          · rename_i ms' r2 hO
            simp only [Option.some.injEq, Prod.mk.injEq] at h
            obtain ⟨-, rfl⟩ := h
            have := ihO _ _ _ hO
            simp only [List.length_cons] at h1 ⊢; omega
          · simp at h
        · simp at h
      · simp at h

theorem pValue_lbrack (n : Nat) (ts : List Tok) (hne : ∀ r, ts = .rbrack :: r → False) :
    pValue (n + 1) (.lbrack :: ts) =
      match pArr n ts with
      | some (vs, r') => some (.arr vs, r')
      | none => none := by
  cases ts with
  | nil => rfl
  | cons t r => cases t <;> first | rfl | exact (hne _ rfl).elim

theorem pValue_lbrace (n : Nat) (ts : List Tok) (hne : ∀ r, ts = .rbrace :: r → False) :
    pValue (n + 1) (.lbrace :: ts) =
      match pObj n ts with
      | some (ms, r') => some (.obj ms, r')
      | none => none := by
  cases ts with
  | nil => rfl
  | cons t r => cases t <;> first | rfl | exact (hne _ rfl).elim

/-- A successful read does not depend on the fuel: it is repeated with any fuel of at
least twice the number of items (one more for the element and member loops). -/
theorem pAll_fuel (n : Nat) :
    (∀ ts x, pValue n ts = some x → ∀ m, 2 * ts.length ≤ m → pValue m ts = some x) ∧
    (∀ ts x, pArr n ts = some x → ∀ m, 2 * ts.length + 1 ≤ m → pArr m ts = some x) ∧
    (∀ ts x, pObj n ts = some x → ∀ m, 2 * ts.length + 1 ≤ m → pObj m ts = some x) := by
  induction n with
  | zero => simp [pValue, pArr, pObj]
  | succ n ih =>
    obtain ⟨ihV, ihA, ihO⟩ := ih
    obtain ⟨lenV, lenA, lenO⟩ := pAll_length n
    refine ⟨?_, ?_, ?_⟩
    · intro ts x h m hm
      cases m with
      | zero =>
        have : ts = [] := by
          cases ts with
          | nil => rfl
          | cons _ _ => simp at hm
        subst this
        simp [pValue_succ] at h
      | succ m =>
        rw [pValue_succ] at h
        split at h
        case h_7 r' hne =>
          rw [pValue_lbrack _ _ hne]
          split at h
          · rename_i vs r2 hA
            rw [ihA _ _ hA m (by simp only [List.length_cons] at hm; omega)]
            exact h
          · simp at h
        case h_9 r' hne =>
          rw [pValue_lbrace _ _ hne]
          split at h
          · rename_i ms r2 hO
            rw [ihO _ _ hO m (by simp only [List.length_cons] at hm; omega)]
            exact h
          · simp at h
        case h_10 => simp at h
        all_goals (rw [pValue_succ]; exact h)
    · intro ts x h m hm
      cases m with
      | zero => omega
      | succ m =>
        rw [pArr_succ] at h
        rw [pArr_succ]
        split at h
        · rename_i v r' hV
          rw [ihV _ _ hV m (by omega)]
          exact h
        · rename_i v r' hV
          have hl := lenV _ _ _ hV
          simp only [List.length_cons] at hl
          rw [ihV _ _ hV m (by omega)]
          split at h
          · rename_i vs r2 hA
            simp only
            rw [ihA _ _ hA m (by omega)]
            exact h
          · simp at h
        · simp at h
    · intro ts x h m hm
      cases m with
      | zero => omega
      | succ m =>
        rw [pObj_succ] at h
        rw [pObj_succ]
        split at h
        · rename_i k ts'
          simp only [List.length_cons] at hm
          split at h
          · rename_i v r' hV
            rw [ihV _ _ hV m (by omega)]
            exact h
          · rename_i v r' hV
            have hl := lenV _ _ _ hV
            simp only [List.length_cons] at hl
            rw [ihV _ _ hV m (by omega)]
            split at h
            · rename_i ms r2 hO
              simp only
              rw [ihO _ _ hO m (by omega)]
              exact h
            · simp at h
          · simp at h
        · simp at h

/-- A successful read with any fuel is what `readValue` gives. -/
theorem readValue_of_pValue {n : Nat} {ts : List Tok} {x : JSON × List Tok}
    (h : pValue n ts = some x) : readValue ts = some x :=
  (pAll_fuel n).1 ts x h _ (Nat.le_refl _)

/-! ## The streaming decoder on a well-formed array -/

/-- A value begins with an item that is neither `]` nor `}`. -/
theorem more_of_pValue {n : Nat} {ts : List Tok} {x : JSON × List Tok}
    (h : pValue n ts = some x) (st : TokenState) (stack : List TokenState) :
    (Decoder.mk ts st stack).More = true := by
  cases n with
  | zero => simp [pValue] at h
  | succ n =>
    rw [pValue_succ] at h
    split at h <;> first | rfl | simp at h

theorem nextValue_arrayStart {n : Nat} {ts : List Tok} {x : JSON × List Tok}
    (h : pValue n ts = some x) (stack : List TokenState) :
    (Decoder.mk ts .arrayStart stack).nextValue = .ok (x.1, ⟨x.2, .arrayComma, stack⟩) := by
  have hr := readValue_of_pValue h
  cases ts with
  | nil => cases n <;> simp [pValue] at h
  | cons t r =>
    simp [Decoder.nextValue, Decoder.tokenPrepareForDecode, TokenState.valueAllowed, hr,
      TokenState.valueEnd]

theorem nextValue_arrayComma {n : Nat} {ts : List Tok} {x : JSON × List Tok}
    (h : pValue n ts = some x) (stack : List TokenState) :
    (Decoder.mk (.comma :: ts) .arrayComma stack).nextValue =
      .ok (x.1, ⟨x.2, .arrayComma, stack⟩) := by
  have hr := readValue_of_pValue h
  cases ts with
  | nil => cases n <;> simp [pValue] at h
  | cons t r =>
    simp [Decoder.nextValue, Decoder.tokenPrepareForDecode, TokenState.valueAllowed, hr,
      TokenState.valueEnd]

/-- The loop of `parsePayload` over the elements of a well-formed array, entered before
the first element or before the comma that precedes a later one. -/
theorem parsePayloadLoop_pArr (env : Env) (n : Nat) :
    ∀ ts elems rest, pArr n ts = some (elems, rest) →
      ∀ fuel request requests stack, ts.length < fuel →
        parsePayloadLoop env fuel ⟨ts, .arrayStart, stack⟩ request requests =
            some (decodeElements env elems request requests) ∧
        (ts.length + 1 < fuel →
          parsePayloadLoop env fuel ⟨.comma :: ts, .arrayComma, stack⟩ request requests =
            some (decodeElements env elems request requests)) := by
  induction n with
  | zero => intro ts elems rest h; simp [pArr] at h
  | succ n ih =>
    intro ts elems rest h fuel request requests stack hfuel
    rw [pArr_succ] at h
    cases fuel with
    | zero => omega
    | succ fuel =>
      have key : ∀ v t r, pValue n ts = some (v, t :: r) →
          (match unmarshal env v request with
            | (request', none) =>
              parsePayloadLoop env fuel ⟨t :: r, .arrayComma, stack⟩ request'
                (requests ++ [request'])
            | (_, some e) => some (.panic (.error e))) =
            some (decodeElements env elems request requests) →
          parsePayloadLoop env (fuel + 1) ⟨ts, .arrayStart, stack⟩ request requests =
            some (decodeElements env elems request requests) ∧
          (ts.length + 1 < fuel + 1 →
            parsePayloadLoop env (fuel + 1) ⟨.comma :: ts, .arrayComma, stack⟩ request requests
              = some (decodeElements env elems request requests)) := by
        intro v t r hV hk
        refine ⟨?_, fun _ => ?_⟩
        · rw [parsePayloadLoop, more_of_pValue hV]
          simp only [if_true, Decoder.Decode, nextValue_arrayStart hV]
          rw [← hk]
          cases unmarshal env v request with
          | mk r' e => cases e <;> rfl
        · rw [parsePayloadLoop]
          simp only [Decoder.More, if_true, Decoder.Decode, nextValue_arrayComma hV]
          rw [← hk]
          cases unmarshal env v request with
          | mk r' e => cases e <;> rfl
      split at h
      · rename_i v r hV
        simp only [Option.some.injEq, Prod.mk.injEq] at h
        obtain ⟨rfl, rfl⟩ := h
        apply key v _ _ hV
        have hl := (pAll_length n).1 _ _ _ hV
        simp only [List.length_cons] at hl
        cases fuel with
        | zero => omega
        | succ fuel =>
          simp only [decodeElements]
          cases unmarshal env v request with
          | mk r' e => cases e <;> simp [parsePayloadLoop, Decoder.More]
      · rename_i v r hV
        have hl := (pAll_length n).1 _ _ _ hV
        simp only [List.length_cons] at hl
        split at h
        · rename_i vs r2 hA
          simp only [Option.some.injEq, Prod.mk.injEq] at h
          obtain ⟨rfl, rfl⟩ := h
          apply key v _ _ hV
          simp only [decodeElements]
          cases unmarshal env v request with
          | mk r' e =>
            cases e with
            | none => exact (ih _ _ _ hA fuel r' _ stack (by omega)).2 (by omega)
            | some e => rfl
        · simp at h
      · simp at h

theorem parsePayload_aux (env : Env) (toks : List Tok) (n : Nat) (elems : List JSON)
    (h : pValue n toks = some (.arr elems, [])) :
    (match tokenFrom env toks .topValue [] with
      | .error e => some (.panic (.error e))
      | .ok (_, decoder) =>
        parsePayloadLoop env (decoder.buf.length + 1) decoder RequestSchema.zero []) =
      some (decodeElements env elems RequestSchema.zero []) := by
  cases n with
  | zero => simp [pValue] at h
  | succ m =>
    rw [pValue_succ] at h
    split at h
    case h_6 r =>
      simp only [Option.some.injEq, Prod.mk.injEq, JSON.arr.injEq] at h
      obtain ⟨rfl, rfl⟩ := h
      rfl
    case h_7 r hne =>
      split at h
      · rename_i vs r2 hA
        simp only [Option.some.injEq, Prod.mk.injEq, JSON.arr.injEq] at h
        obtain ⟨rfl, rfl⟩ := h
        simp only [tokenFrom, TokenState.valueAllowed, if_true]
        exact (parsePayloadLoop_pArr env m _ _ _ hA _ _ _ _ (Nat.lt_succ_self _)).1
      · simp at h
    case h_9 r hne =>
      split at h <;> simp at h
    all_goals simp at h

/-- On a payload that is a well-formed JSON array, `parsePayload` stores the elements one
after the other, in payload order, into the one struct `request`. -/
theorem parsePayload_of_array (env : Env) (payload : String) (elems : List JSON)
    (h : parseDocument payload = some (.arr elems)) :
    parsePayload env payload = some (decodeElements env elems RequestSchema.zero []) := by
  unfold parseDocument at h
  split at h
  · rename_i v hr
    simp only [Option.some.injEq] at h
    subst h
    exact parsePayload_aux env _ _ _ hr
  · simp at h

/-! ## Storing a request object -/

theorem mapInsert_fresh (m : List (String × GoValue)) (k : String) (v : GoValue)
    (h : k ∉ m.map Prod.fst) : mapInsert m k v = m ++ [(k, v)] := by
  induction m with
  | nil => rfl
  | cons a m ih =>
    obtain ⟨k', v'⟩ := a
    simp only [List.map_cons, List.mem_cons, not_or] at h
    simp only [mapInsert, if_neg (Ne.symm h.1), ih h.2, List.cons_append]

theorem objectInterface_strings (env : Env) (hs : List (String × String))
    (m : List (String × GoValue))
    (hnd : (m.map Prod.fst ++ hs.map Prod.fst).Nodup) :
    objectInterface env (hs.map fun kv => (kv.1, JSON.str kv.2)) m =
      m ++ hs.map fun kv => (kv.1, GoValue.string kv.2) := by
  induction hs generalizing m with
  | nil => simp [objectInterface]
  | cons a hs ih =>
    obtain ⟨k, v⟩ := a
    simp only [List.map_cons, objectInterface, valueInterface]
    have hk : k ∉ m.map Prod.fst := by
      intro hk
      have := List.nodup_append.1 hnd
      exact this.2.2 hk (by simp)
    rw [mapInsert_fresh m k _ hk, ih]
    · simp
    · simp only [List.map_append, List.map_cons, List.map_nil, List.append_assoc,
        List.singleton_append]
      simpa using hnd

theorem rangeErrorMembers_strings (env : Env) (hs : List (String × String)) :
    rangeErrorMembers env (hs.map fun kv => (kv.1, JSON.str kv.2)) = false := by
  induction hs with
  | nil => rfl
  | cons a hs ih => simp [rangeErrorMembers, rangeError, ih]

theorem storeMember_comm (env : Env) (r : RequestSpec) :
    ∀ x ∈ r.members, ∀ y ∈ r.members, ∀ z,
      storeMember env (storeMember env z x) y = storeMember env (storeMember env z y) x := by
  intro x hx y hy z
  simp only [RequestSpec.members, List.mem_cons, List.mem_singleton, List.not_mem_nil,
    or_false] at hx hy
  have f1 : fieldOf "method" = some .Method := by decide
  have f2 : fieldOf "url" = some .Url := by decide
  have f3 : fieldOf "headers" = some .Headers := by decide
  have f4 : fieldOf "body" = some .Body := by decide
  rcases hx with rfl | rfl | rfl | rfl <;> rcases hy with rfl | rfl | rfl | rfl <;>
    simp only [storeMember, f1, f2, f3, f4, storeString, rangeError,
      rangeErrorMembers_strings, Bool.false_eq_true, if_false]

/-- A request object for `r`, stored into any struct, leaves exactly the fields of `r`. -/
theorem unmarshal_request_object (env : Env) (j : JSON) (r : RequestSpec)
    (h : IsRequestObject j r) (request : RequestSchema) :
    unmarshal env j request = (r.toSchema, none) := by
  obtain ⟨hnd, ms, rfl, hp⟩ := h
  have f1 : fieldOf "method" = some .Method := by decide
  have f2 : fieldOf "url" = some .Url := by decide
  have f3 : fieldOf "headers" = some .Headers := by decide
  have f4 : fieldOf "body" = some .Body := by decide
  simp only [unmarshal]
  rw [hp.foldl_eq' (fun x hx y hy z => by
    have := storeMember_comm env r x (hp.mem_iff.1 hx) y (hp.mem_iff.1 hy) z
    exact this)]
  simp only [RequestSpec.members, List.foldl_cons, List.foldl_nil, storeMember, f1, f2, f3, f4,
    storeString, rangeError, rangeErrorMembers_strings, Bool.false_eq_true, if_false,
    valueInterface, RequestSpec.toSchema]
  rw [objectInterface_strings env r.headers [] (by simpa using hnd)]
  rfl

theorem decodeElements_request_objects (env : Env) (elems : List JSON)
    (specs : List RequestSpec) (h : List.Forall₂ IsRequestObject elems specs)
    (request : RequestSchema) (requests : List RequestSchema) :
    decodeElements env elems request requests =
      .ok (requests ++ specs.map RequestSpec.toSchema) := by
  induction h generalizing request requests with
  | nil => simp [decodeElements]
  | cons hj _ ih =>
    simp only [decodeElements, unmarshal_request_object env _ _ hj, ih, List.map_cons,
      List.append_assoc, List.singleton_append]

/-! ## Errors of `unmarshal` -/

theorem storeMember_savedError (env : Env) (m : String × JSON) (d₁ d₂ : DecodeState)
    (h : d₁.savedError = d₂.savedError) :
    (storeMember env d₁ m).savedError = (storeMember env d₂ m).savedError := by
  obtain ⟨k, j⟩ := m
  obtain ⟨v₁, e₁⟩ := d₁
  obtain ⟨v₂, e₂⟩ := d₂
  simp only at h
  subst h
  unfold storeMember
  cases fieldOf k with
  | none => rfl
  | some f =>
    cases f <;> cases j <;> cases e₁ <;>
      simp only [storeString, DecodeState.saveError] <;>
      (try split) <;> (try simp only [DecodeState.saveError])

theorem foldl_storeMember_savedError (env : Env) (ms : List (String × JSON))
    (d₁ d₂ : DecodeState) (h : d₁.savedError = d₂.savedError) :
    (ms.foldl (storeMember env) d₁).savedError = (ms.foldl (storeMember env) d₂).savedError := by
  induction ms generalizing d₁ d₂ with
  | nil => exact h
  | cons m ms ih => exact ih _ _ (storeMember_savedError env m d₁ d₂ h)

/-- Whether `unmarshal` fails depends on the value only, not on what the struct holds. -/
theorem unmarshal_error (env : Env) (j : JSON) (r₁ r₂ : RequestSchema) :
    (unmarshal env j r₁).2 = (unmarshal env j r₂).2 := by
  cases j <;> simp only [unmarshal]
  exact foldl_storeMember_savedError env _ _ _ rfl

theorem decodeElements_bad (env : Env) (elems : List JSON)
    (h : ∃ j ∈ elems, ∃ r, (unmarshal env j r).2 ≠ none)
    (request : RequestSchema) (requests : List RequestSchema) :
    ∃ p, decodeElements env elems request requests = .panic p := by
  induction elems generalizing request requests with
  | nil => simp at h
  | cons j js ih =>
    simp only [decodeElements]
    cases hu : unmarshal env j request with
    | mk r' e =>
      cases e with
      | some e => exact ⟨_, rfl⟩
      | none =>
        simp only
        apply ih
        obtain ⟨j', hj', r, hr⟩ := h
        rcases List.mem_cons.1 hj' with rfl | hmem
        · rw [unmarshal_error env j' r request, hu] at hr
          exact (hr rfl).elim
        · exact ⟨j', hmem, r, hr⟩

/-! ## Runs of the process -/

theorem Step.running {env : Env} {s t : Proc} (h : Step env s t) : s.status = .running := by
  cases h <;> assumption

/-- A process that is not running takes no step. -/
theorem Reachable.of_not_running {env : Env} {s t : Proc} (h : Reachable env s t)
    (hs : s.status ≠ .running) : t = s := by
  induction h with
  | refl => rfl
  | step t u _ hstep ih => subst ih; exact (hs hstep.running).elim

theorem Reachable.aborted {env : Env} {p : PanicValue} {s : Proc}
    (h : Reachable env (Proc.aborted p) s) : s = Proc.aborted p :=
  h.of_not_running (by simp [Proc.aborted])

theorem countP_set {p : Routine → Bool} {l : List Routine} {i : Nat} {r x : Routine}
    (h : l.get? i = some r) :
    (l.set i x).countP p + (if p r then 1 else 0) = l.countP p + (if p x then 1 else 0) := by
  induction l generalizing i with
  | nil => simp at h
  | cons a l ih =>
    cases i with
    | zero =>
      simp only [List.get?_cons_zero, Option.some.injEq] at h
      subst h
      simp only [List.set_cons_zero, List.countP_cons]
      omega
    | succ i =>
      simp only [List.get?_cons_succ] at h
      simp only [List.set_cons_succ, List.countP_cons]
      have := ih h
      omega

theorem map_request_set {l : List Routine} {i : Nat} {r x : Routine}
    (h : l.get? i = some r) (hx : x.request = r.request) :
    (l.set i x).map (fun a => a.request) = l.map (fun a => a.request) := by
  induction l generalizing i with
  | nil => simp at h
  | cons a l ih =>
    cases i with
    | zero =>
      simp only [List.get?_cons_zero, Option.some.injEq] at h
      subst h
      simp [hx]
    | succ i =>
      simp only [List.get?_cons_succ] at h
      simp [ih h]

theorem Inv.start (requests : List RequestSchema) : Inv requests (Proc.start requests) := by
  constructor <;> simp [Proc.start]

theorem Inv.step {env : Env} {requests : List RequestSchema} {s t : Proc}
    (h : Inv requests s) (hstep : Step env s t) : Inv requests t := by
  cases hstep with
  | launch request rest hst hpc hpend =>
    constructor
    · simp only [List.map_append, List.map_cons, List.map_nil, List.append_assoc,
        List.singleton_append]
      rw [← hpend]; exact h.launched
    · simp only [List.countP_append, List.countP_cons, List.countP_nil, decide_True,
        if_true, Nat.zero_add, Nat.cast_add, Nat.cast_one]
      rw [h.counter]
    · intro r hr
      rcases List.mem_append.1 hr with hr | hr
      · exact h.calls r hr
      · simp only [List.mem_singleton] at hr
        subst hr; rfl
    · intro hw; simp only [hpc] at hw; cases hw
    · intro he; simp only [hst] at he; cases he
    · simp only [List.countP_append, List.countP_cons, List.countP_nil]
      simpa using h.printed
    · intro p hp; simp only [hst] at hp; cases hp
  | loopEnd hst hpc hpend =>
    constructor
    · exact h.launched
    · exact h.counter
    · exact h.calls
    · intro _; exact hpend
    · intro he; simp only [hst] at he; cases he
    · exact h.printed
    · intro p hp; simp only [hst] at hp; cases hp
  | finish i r responseBytes hst hget hph hrun =>
    have hmem : r ∈ s.routines := List.get?_mem hget
    have hcalls := h.calls r hmem
    rw [if_pos hph] at hcalls
    constructor
    · simp only
      rw [map_request_set (x := { r with phase := .returned, doneCalls := r.doneCalls + 1 })
        hget rfl]
      exact h.launched
    · simp only
      have := countP_set (p := fun a => decide (a.phase = .started))
        (x := { r with phase := .returned, doneCalls := r.doneCalls + 1 }) hget
      simp only [hph, decide_True, if_true, reduceCtorEq, decide_False, Bool.false_eq_true,
        if_false, Nat.add_zero] at this
      rw [h.counter, ← this]
      push_cast; ring
    · intro r' hr'
      rcases List.mem_or_eq_of_mem_set hr' with hr' | rfl
      · exact h.calls r' hr'
      · simp [hcalls]
    · exact h.waiting
    · intro he; simp only [hst] at he; cases he
    · simp only [List.length_append, List.length_singleton]
      have := countP_set (p := fun a => decide (a.phase = .returned))
        (x := { r with phase := .returned, doneCalls := r.doneCalls + 1 }) hget
      simp only [hph, decide_True, if_true, reduceCtorEq, decide_False, Bool.false_eq_true,
        if_false, Nat.add_zero] at this
      rw [h.printed, this]
    · intro p hp; simp only [hst] at hp; cases hp
  | fail i r p hst hget hph hrun =>
    have hmem : r ∈ s.routines := List.get?_mem hget
    have hcalls := h.calls r hmem
    rw [if_pos hph] at hcalls
    constructor
    · simp only
      rw [map_request_set (x := { r with phase := .panicking p, doneCalls := r.doneCalls + 1 })
        hget rfl]
      exact h.launched
    · simp only
      have := countP_set (p := fun a => decide (a.phase = .started))
        (x := { r with phase := .panicking p, doneCalls := r.doneCalls + 1 }) hget
      simp only [hph, decide_True, if_true, reduceCtorEq, decide_False, Bool.false_eq_true,
        if_false, Nat.add_zero] at this
      rw [h.counter, ← this]
      push_cast; ring
    · intro r' hr'
      rcases List.mem_or_eq_of_mem_set hr' with hr' | rfl
      · exact h.calls r' hr'
      · simp [hcalls]
    · exact h.waiting
    · intro he; simp only [hst] at he; cases he
    · simp only
      have := countP_set (p := fun a => decide (a.phase = .returned))
        (x := { r with phase := .panicking p, doneCalls := r.doneCalls + 1 }) hget
      simp only [hph, reduceCtorEq, decide_False, Bool.false_eq_true,
        if_false, Nat.add_zero] at this
      rw [h.printed, this]
    · intro p hp; simp only [hst] at hp; cases hp
  | abort i r p hst hget hph =>
    constructor
    · exact h.launched
    · exact h.counter
    · exact h.calls
    · exact h.waiting
    · intro he; cases he
    · exact h.printed
    · intro p' hp'
      simp only [Status.crashed.injEq] at hp'
      subst hp'
      exact ⟨r, List.get?_mem hget, hph⟩
  | join hst hpc hwg =>
    constructor
    · exact h.launched
    · exact h.counter
    · exact h.calls
    · exact h.waiting
    · intro _; exact ⟨hpc, hwg⟩
    · exact h.printed
    · intro p hp; cases hp

theorem Inv.reachable {env : Env} {requests : List RequestSchema} {s : Proc}
    (h : Reachable env (Proc.start requests) s) : Inv requests s := by
  induction h with
  | refl => exact Inv.start requests
  | step t u _ hstep ih => exact ih.step hstep

theorem Token_noLeadingValue (env : Env) (payload : String) (h : NoLeadingValue payload) :
    ∃ e, (NewDecoder payload).Token env = .error e := by
  unfold NoLeadingValue at h
  unfold NewDecoder Decoder.Token
  cases hs : scan payload with
  | nil => exact ⟨_, rfl⟩
  | cons t r =>
    rw [hs] at h
    simp only at h
    rcases h with rfl | rfl | rfl | rfl | rfl
    · refine ⟨.syntaxError, ?_⟩
      simp [tokenFrom, TokenState.valueAllowed, Decoder.DecodeAny, Decoder.nextValue,
        Decoder.tokenPrepareForDecode, readValue, pValue_succ, Nat.mul_succ]
    all_goals exact ⟨_, rfl⟩

theorem parsePayload_noLeadingValue (env : Env) (payload : String)
    (h : NoLeadingValue payload) :
    ∃ e, parsePayload env payload = some (.panic (.error e)) := by
  obtain ⟨e, he⟩ := Token_noLeadingValue env payload h
  exact ⟨e, by simp only [parsePayload, he]⟩

/-- A run over the empty batch launches nothing, prints nothing and is not aborted. -/
theorem Reachable.empty_batch {env : Env} {s : Proc} (h : Reachable env (Proc.start []) s) :
    s.routines = [] ∧ s.stdout = [] ∧ ∀ p, s.status ≠ .crashed p := by
  have inv := Inv.reachable h
  have hr : s.routines = [] := by
    have := inv.launched
    simp only [List.append_eq_nil, List.map_eq_nil_iff] at this
    exact this.1
  refine ⟨hr, ?_, ?_⟩
  · have := inv.printed
    rw [hr] at this
    exact List.length_eq_zero.1 this
  · intro p hp
    obtain ⟨r, hmem, _⟩ := inv.crash p hp
    rw [hr] at hmem
    cases hmem

/-! ## Headers -/

theorem lookup_headerAssign_self (h : Header) (k : String) (vs : List String) :
    (headerAssign h k vs).lookup k = some vs := by
  induction h with
  | nil => simp [headerAssign, List.lookup]
  | cons a h ih =>
    obtain ⟨k', vs'⟩ := a
    by_cases hk : k' = k
    · simp [headerAssign, hk, List.lookup]
    · have : (k == k') = false := by simpa using Ne.symm hk
      simp [headerAssign, hk, List.lookup, this, ih]

theorem lookup_headerAssign_ne (h : Header) (k c : String) (vs : List String) (hc : c ≠ k) :
    (headerAssign h k vs).lookup c = h.lookup c := by
  induction h with
  | nil =>
    have : (c == k) = false := by simpa using hc
    simp [headerAssign, List.lookup, this]
  | cons a h ih =>
    obtain ⟨k', vs'⟩ := a
    by_cases hk : k' = k
    · subst hk
      have : (c == k') = false := by simpa using hc
      simp [headerAssign, List.lookup, this]
    · simp only [headerAssign, hk, if_false, List.lookup]
      cases c == k' <;> simp [ih]

/-- The header loop over entries that are all strings and whose canonical names are
distinct: it does not panic, every entry is in the header under its canonical name, and
every other name is as before. -/
theorem setHeaders_strings (ord : List (String × GoValue)) :
    ∀ h₀ : Header, (∀ kv ∈ ord, ∃ s, kv.2 = GoValue.string s) →
      (ord.map fun kv => CanonicalMIMEHeaderKey kv.1).Nodup →
      ∃ h, setHeaders ord h₀ = .ok h ∧
        (∀ k s, (k, GoValue.string s) ∈ ord →
          h.lookup (CanonicalMIMEHeaderKey k) = some [s]) ∧
        (∀ c, c ∉ ord.map (fun kv => CanonicalMIMEHeaderKey kv.1) →
          h.lookup c = h₀.lookup c) := by
  induction ord with
  | nil => intro h₀ _ _; exact ⟨h₀, rfl, by simp, fun _ _ => rfl⟩
  | cons a ord ih =>
    intro h₀ hstr hnd
    obtain ⟨k, v⟩ := a
    obtain ⟨s, hs⟩ := hstr (k, v) (List.mem_cons_self _ _)
    simp only at hs
    subst hs
    simp only [List.map_cons, List.nodup_cons] at hnd
    obtain ⟨h, hset, hin, hout⟩ := ih (Header.Set h₀ k s)
      (fun kv hkv => hstr kv (List.mem_cons_of_mem _ hkv)) hnd.2
    refine ⟨h, by simp only [setHeaders, hset], ?_, ?_⟩
    · intro k' s' hmem
      rcases List.mem_cons.1 hmem with heq | hmem
      · simp only [Prod.mk.injEq, GoValue.string.injEq] at heq
        obtain ⟨rfl, rfl⟩ := heq
        rw [hout _ hnd.1]
        exact lookup_headerAssign_self _ _ _
      · exact hin k' s' hmem
    · intro c hc
      simp only [List.map_cons, List.mem_cons, not_or] at hc
      rw [hout c hc.2]
      exact lookup_headerAssign_ne _ _ _ _ hc.1

/-- The header loop over entries one of which is not a string panics. -/
theorem setHeaders_non_string (ord : List (String × GoValue))
    (h : ∃ kv ∈ ord, ∀ s, kv.2 ≠ GoValue.string s) (h₀ : Header) :
    setHeaders ord h₀ = .panic .typeAssertion := by
  induction ord generalizing h₀ with
  | nil => simp at h
  | cons a ord ih =>
    obtain ⟨k, v⟩ := a
    cases v with
    | string s =>
      simp only [setHeaders]
      apply ih
      obtain ⟨kv, hmem, hkv⟩ := h
      rcases List.mem_cons.1 hmem with rfl | hmem
      · exact (hkv s rfl).elim
      · exact ⟨kv, hmem, hkv⟩
    | _ => rfl

theorem foldl_storeMember_headers (env : Env) (ms : List (String × JSON)) (d : DecodeState)
    (h : ∀ m ∈ ms, fieldOf m.1 ≠ some .Headers) :
    (ms.foldl (storeMember env) d).v.Headers = d.v.Headers := by
  induction ms generalizing d with
  | nil => rfl
  | cons m ms ih =>
    simp only [List.foldl_cons]
    rw [ih _ (fun m' hm' => h m' (List.mem_cons_of_mem _ hm'))]
    have hm := h m (List.mem_cons_self _ _)
    unfold storeMember
    cases hf : fieldOf m.1 with
    | none => rfl
    | some f =>
      cases f with
      | Headers => exact (hm hf).elim
      | _ =>
        simp only
        split <;> first | rfl | (simp only [DecodeState.saveError]; split <;> rfl)

/-! ## The loop of `parsePayload` ends -/

theorem nextValue_length {dec dec' : Decoder} {j : JSON}
    (h : dec.nextValue = .ok (j, dec')) : dec'.buf.length < dec.buf.length := by
  unfold Decoder.nextValue at h
  split at h
  · cases h
  · rename_i dec1 hprep
    have hle : dec1.buf.length ≤ dec.buf.length := by
      unfold Decoder.tokenPrepareForDecode at hprep
      split at hprep
      · split at hprep
        · cases hprep
        · rename_i r hbuf
          simp only [Except.ok.injEq] at hprep
          subst hprep
          simp only [hbuf, List.length_cons]
          omega
        · cases hprep
      · split at hprep
        · cases hprep
        · rename_i r hbuf
          simp only [Except.ok.injEq] at hprep
          subst hprep
          simp only [hbuf, List.length_cons]
          omega
        · cases hprep
      · simp only [Except.ok.injEq] at hprep
        subst hprep
        exact Nat.le_refl _
    split at h
    · split at h
      · cases h
      · split at h
        · cases h
        · rename_i j' r hread
          simp only [Except.ok.injEq, Prod.mk.injEq] at h
          obtain ⟨-, rfl⟩ := h
          have := (pAll_length _).1 _ _ _ hread
          simp only
          omega
    · cases h

theorem Decode_length {env : Env} {dec dec' : Decoder} {request request' : RequestSchema}
    (h : dec.Decode env request = .ok (request', dec')) :
    dec'.buf.length < dec.buf.length := by
  unfold Decoder.Decode at h
  split at h
  · cases h
  · rename_i j dec1 hnext
    split at h
    · simp only [Except.ok.injEq, Prod.mk.injEq] at h
      obtain ⟨-, rfl⟩ := h
      exact nextValue_length hnext
    · cases h

theorem parsePayloadLoop_total (env : Env) (fuel : Nat) :
    ∀ (dec : Decoder) (request : RequestSchema) (requests : List RequestSchema),
      dec.buf.length < fuel → ∃ r, parsePayloadLoop env fuel dec request requests = some r := by
  induction fuel with
  | zero => intro dec _ _ h; omega
  | succ fuel ih =>
    intro dec request requests h
    rw [parsePayloadLoop]
    split
    · cases hd : dec.Decode env request with
      | error e => exact ⟨_, rfl⟩
      | ok x =>
        obtain ⟨request', dec'⟩ := x
        have := Decode_length hd
        exact ih dec' request' _ (by omega)
    · exact ⟨_, rfl⟩

/-- The fuel of `parsePayload` is never used up: the function returns or panics. -/
theorem parsePayload_total (env : Env) (payload : String) :
    ∃ r, parsePayload env payload = some r := by
  unfold parsePayload
  split
  · exact ⟨_, rfl⟩
  · exact parsePayloadLoop_total env _ _ _ _ (Nat.lt_succ_self _)

/-- Function `main` always gets to its loop or is aborted before it. -/
theorem mainStart_total (env : Env) (payload : String) :
    ∃ s, mainStart env payload = some s := by
  unfold mainStart
  split
  · exact ⟨_, rfl⟩
  · obtain ⟨r, hr⟩ := parsePayload_total env payload
    rw [hr]
    cases r <;> exact ⟨_, rfl⟩

/-! ## The two decodings on request objects -/

theorem unmarshalFresh_request_objects (env : Env) (elems : List JSON)
    (specs : List RequestSpec) (h : List.Forall₂ IsRequestObject elems specs) :
    unmarshalFresh env elems = .ok (specs.map RequestSpec.toSchema) := by
  induction h with
  | nil => rfl
  | cons hj _ ih =>
    simp only [unmarshalFresh, unmarshal_request_object env _ _ hj, ih, List.map_cons]

/-- Where every element gives all four fields, the shared variable of the loop does no
harm: element by element and all at once give the same sequence. -/
theorem parsePayload_eq_unmarshalWholeArray (env : Env) (payload : String)
    (elems : List JSON) (specs : List RequestSpec)
    (hdoc : parseDocument payload = some (.arr elems))
    (hobj : List.Forall₂ IsRequestObject elems specs) :
    parsePayload env payload = unmarshalWholeArray env payload := by
  rw [parsePayload_of_array env payload elems hdoc,
    decodeElements_request_objects env elems specs hobj]
  simp only [unmarshalWholeArray, hdoc, unmarshalFresh_request_objects env elems specs hobj,
    List.nil_append]

/-! ## Which elements do not decode -/

theorem storeMember_savedError_eq (env : Env) (d : DecodeState) (m : String × JSON) :
    (storeMember env d m).savedError =
      match d.savedError with
      | some e => some e
      | none => bif badMember env m then some .unmarshalType else none := by
  obtain ⟨k, j⟩ := m
  obtain ⟨v, e⟩ := d
  unfold storeMember badMember
  cases fieldOf k with
  | none => cases e <;> rfl
  | some f =>
    cases f <;> cases j <;> cases e <;>
      simp only [storeString, DecodeState.saveError, badString, rangeError] <;>
      (try split) <;> simp_all [DecodeState.saveError]

theorem foldl_storeMember_savedError_eq (env : Env) (ms : List (String × JSON))
    (d : DecodeState) :
    (ms.foldl (storeMember env) d).savedError =
      match d.savedError with
      | some e => some e
      | none => bif ms.any (badMember env) then some .unmarshalType else none := by
  induction ms generalizing d with
  | nil => cases h : d.savedError <;> simp [h]
  | cons m ms ih =>
    rw [List.foldl_cons, ih, storeMember_savedError_eq]
    cases d.savedError with
    | some e => rfl
    | none =>
      simp only [List.any_cons]
      cases badMember env m <;> rfl

/-- An element fails to decode, whatever the struct holds, exactly when it is one of the
elements `badElement` lists. -/
theorem unmarshal_error_iff (env : Env) (j : JSON) (request : RequestSchema) :
    (unmarshal env j request).2 ≠ none ↔ badElement env j = true := by
  cases j with
  | obj ms =>
    simp only [unmarshal, badElement, foldl_storeMember_savedError_eq]
    cases ms.any (badMember env) <;> simp
  | _ => simp [unmarshal, badElement]

/-! ## The properties of the specification -/

/-- C1. For every payload that is a well-formed JSON array of N request objects, each
giving method, url, headers (an object of string values) and body, `parsePayload` returns
exactly N Request Specifications in payload order, the i-th one carrying the method, url,
headers and body of the i-th array element. -/
theorem parsePayload_request_objects (env : Env) (payload : String) (elems : List JSON)
    (specs : List RequestSpec)
    (hdoc : parseDocument payload = some (.arr elems))
    (hobj : List.Forall₂ IsRequestObject elems specs) :
    parsePayload env payload = some (.ok (specs.map RequestSpec.toSchema)) ∧
      (specs.map RequestSpec.toSchema).length = elems.length := by
  refine ⟨?_, ?_⟩
  · rw [parsePayload_of_array env payload elems hdoc,
      decodeElements_request_objects env elems specs hobj]
    rfl
  · rw [List.length_map, hobj.length_eq]

/-- C1, on the two-element payload of the specification,
`[{"method":"GET","url":"http://host/a","headers":{"X":"1"},"body":""},
{"method":"POST","url":"http://host/b","headers":{},"body":"hi"}]` (written without the
line break): the result is `[GET http://host/a, headers {X: 1}, body ""]` followed by
`[POST http://host/b, headers {}, body "hi"]`. -/
theorem parsePayload_request_objects_witness :
    parsePayload Env.demo
        "[\x7b\"method\":\"GET\",\"url\":\"http://host/a\",\"headers\":\x7b\"X\":\"1\"\x7d,\"body\":\"\"\x7d,\x7b\"method\":\"POST\",\"url\":\"http://host/b\",\"headers\":\x7b\x7d,\"body\":\"hi\"\x7d]" =
      some (.ok [⟨"GET", "http://host/a", .map [("X", .string "1")], ""⟩,
        ⟨"POST", "http://host/b", .map [], "hi"⟩]) :=
  (parsePayload_request_objects Env.demo _
    [.obj [("method", .str "GET"), ("url", .str "http://host/a"),
        ("headers", .obj [("X", .str "1")]), ("body", .str "")],
      .obj [("method", .str "POST"), ("url", .str "http://host/b"),
        ("headers", .obj []), ("body", .str "hi")]]
    [⟨"GET", "http://host/a", [("X", "1")], ""⟩, ⟨"POST", "http://host/b", [], "hi"⟩]
    (by rfl)
    (.cons ⟨by simp, _, rfl, List.Perm.refl _⟩
      (.cons ⟨by simp, _, rfl, List.Perm.refl _⟩ .nil))).1

/-- C2, counterexample. The payload `{}`, an object and not an array, is not rejected:
`Token` reads `{`, `More` sees `}`, and `parsePayload` returns the empty sequence; `main`
goes on into its loop. Nor is the payload `[`, which is not valid JSON: `Token` reads `[`,
`More` sees the end of the input, and the result is again the empty sequence. -/
theorem parsePayload_object_accepted :
    parsePayload Env.demo "\x7b\x7d" = some (.ok []) ∧
      mainStart Env.demo "\x7b\x7d" = some (Proc.start []) ∧
      parseDocument "[" = none ∧
      parsePayload Env.demo "[" = some (.ok []) :=
  ⟨rfl, rfl, rfl, rfl⟩

/-- C2, amended. For every payload that is empty, or that has nothing at its front a
value could start with (it is blank, or begins with a malformed item such as `not json`,
or with `]`, `}`, `,` or `:`), the run fails with a panic before any exchange is
dispatched and nothing is printed. A top-level value that is not an array is not rejected
as such: on `{}` `parsePayload` returns the empty sequence without error, and still no
exchange is dispatched. -/
theorem mainStart_rejects (env : Env) (payload : String)
    (h : payload = "" ∨ NoLeadingValue payload) :
    (∃ p, mainStart env payload = some (Proc.aborted p) ∧
      (payload ≠ "" → parsePayload env payload = some (.panic p)) ∧
      ∀ s, Reachable env (Proc.aborted p) s → s.routines = [] ∧ s.stdout = []) ∧
    (parsePayload env "\x7b\x7d" = some (.ok []) ∧
      mainStart env "\x7b\x7d" = some (Proc.start []) ∧
      ∀ s, Reachable env (Proc.start []) s → s.routines = [] ∧ s.stdout = []) := by
  refine ⟨?_, rfl, rfl, fun s hs => ⟨hs.empty_batch.1, hs.empty_batch.2.1⟩⟩
  have hab : ∀ p s, Reachable env (Proc.aborted p) s → s.routines = [] ∧ s.stdout = [] := by
    intro p s hs
    rw [hs.aborted]
    exact ⟨rfl, rfl⟩
  by_cases he : payload = ""
  · refine ⟨.payloadEmpty, ?_, fun hne => (hne he).elim, hab _⟩
    simp only [mainStart, he, if_true]
  · rcases h with h | h
    · exact (he h).elim
    · obtain ⟨e, hp⟩ := parsePayload_noLeadingValue env payload h
      refine ⟨.error e, ?_, fun _ => hp, hab _⟩
      simp only [mainStart, he, if_false, hp]

/-- C2, amended, on the payload `not json`. -/
theorem mainStart_rejects_witness :
    ∃ p, mainStart Env.demo "not json" = some (Proc.aborted p) ∧
      ("not json" ≠ "" → parsePayload Env.demo "not json" = some (.panic p)) ∧
      ∀ s, Reachable Env.demo (Proc.aborted p) s → s.routines = [] ∧ s.stdout = [] :=
  (mainStart_rejects Env.demo "not json" (Or.inr (by
    show NoLeadingValue "not json"
    unfold NoLeadingValue
    have : scan "not json" = [.bad] := by rfl
    rw [this]
    exact Or.inl rfl))).1

/-- C3, the code at the failing input, the payload
`[{"method":"POST","url":"http://host/a","headers":{"X":"1"},"body":"hi"},
{"method":"GET","url":"http://host/b"}]` (written without the line break). The second
element gives neither `headers` nor `body`; `parsePayload` returns it with the headers
and the body of the first element,
which the shared variable `request` still holds, whereas decoding the whole array into a
fresh list gives it no headers and an empty body. -/
theorem parsePayload_leaks_previous_element :
    parsePayload Env.demo
        "[\x7b\"method\":\"POST\",\"url\":\"http://host/a\",\"headers\":\x7b\"X\":\"1\"\x7d,\"body\":\"hi\"\x7d,\x7b\"method\":\"GET\",\"url\":\"http://host/b\"\x7d]" =
      some (.ok [⟨"POST", "http://host/a", .map [("X", .string "1")], "hi"⟩,
        ⟨"GET", "http://host/b", .map [("X", .string "1")], "hi"⟩]) ∧
    unmarshalWholeArray Env.demo
        "[\x7b\"method\":\"POST\",\"url\":\"http://host/a\",\"headers\":\x7b\"X\":\"1\"\x7d,\"body\":\"hi\"\x7d,\x7b\"method\":\"GET\",\"url\":\"http://host/b\"\x7d]" =
      some (.ok [⟨"POST", "http://host/a", .map [("X", .string "1")], "hi"⟩,
        ⟨"GET", "http://host/b", .nil, ""⟩]) :=
  ⟨rfl, rfl⟩

/-- C10, counterexample. The element `null` of the payload `[null]` is not an object,
and it decodes: `parsePayload` returns one request, the zero struct, and `main` enters
its loop with it. An element whose headers hold a number, as in
`[{"method":"GET","url":"http://host/b","headers":{"X":1},"body":""}]`, does not match
the Request Specification shape and decodes as well. -/
theorem parsePayload_null_element_accepted :
    parsePayload Env.demo "[null]" = some (.ok [RequestSchema.zero]) ∧
      mainStart Env.demo "[null]" = some (Proc.start [RequestSchema.zero]) ∧
      parsePayload Env.demo
          "[\x7b\"method\":\"GET\",\"url\":\"http://host/b\",\"headers\":\x7b\"X\":1\x7d,\"body\":\"\"\x7d]" =
        some (.ok [⟨"GET", "http://host/b", .map [("X", .float64 "1")], ""⟩]) :=
  ⟨rfl, rfl, rfl⟩

/-- C10, amended. For every payload array in which some element is a string, a number,
a boolean or an array, or is an object that gives for `method`, `url` or `body` a value
that is neither a string nor `null` (or gives for `headers` a value with a number
outside the range of `float64`), `parsePayload` panics: it returns no sequence, not even
the elements before the bad one, `main` is aborted before its loop, and no exchange is
dispatched. These are exactly the elements on which the decoding reports an error; an
element `null` has no effect on the struct and is not among them, nor is an object whose
headers hold values that are not strings. -/
theorem parsePayload_bad_element (env : Env) (payload : String) (elems : List JSON)
    (hdoc : parseDocument payload = some (.arr elems))
    (hbad : ∃ j ∈ elems, badElement env j = true) :
    (∃ p, parsePayload env payload = some (.panic p) ∧
      mainStart env payload = some (Proc.aborted p) ∧
      ∀ s, Reachable env (Proc.aborted p) s → s.routines = [] ∧ s.stdout = []) ∧
    (∀ j request, (unmarshal env j request).2 ≠ none ↔ badElement env j = true) ∧
    (∀ request, unmarshal env .null request = (request, none)) := by
  refine ⟨?_, unmarshal_error_iff env, fun _ => rfl⟩
  obtain ⟨j, hj, hb⟩ := hbad
  obtain ⟨p, hp⟩ := decodeElements_bad env elems
    ⟨j, hj, RequestSchema.zero, (unmarshal_error_iff env j _).2 hb⟩ RequestSchema.zero []
  have hpp : parsePayload env payload = some (.panic p) := by
    rw [parsePayload_of_array env payload elems hdoc, hp]
  have hne : payload ≠ "" := by
    rintro rfl
    have : parseDocument "" = none := by rfl
    rw [this] at hdoc
    cases hdoc
  refine ⟨p, hpp, ?_, ?_⟩
  · simp only [mainStart, hne, if_false, hpp]
  · intro s hs
    rw [hs.aborted]
    exact ⟨rfl, rfl⟩

/-- C10, amended, on the payload
`[{"method":"GET","url":"http://host/a","headers":{},"body":""},{"method":7}]`, whose
second element has a number for `method`: the first element, which is good, is not
returned. -/
theorem parsePayload_bad_element_witness :
    ∃ p, parsePayload Env.demo
          "[\x7b\"method\":\"GET\",\"url\":\"http://host/a\",\"headers\":\x7b\x7d,\"body\":\"\"\x7d,\x7b\"method\":7\x7d]" =
        some (.panic p) ∧
      mainStart Env.demo
          "[\x7b\"method\":\"GET\",\"url\":\"http://host/a\",\"headers\":\x7b\x7d,\"body\":\"\"\x7d,\x7b\"method\":7\x7d]" =
        some (Proc.aborted p) ∧
      ∀ s, Reachable Env.demo (Proc.aborted p) s → s.routines = [] ∧ s.stdout = [] :=
  (parsePayload_bad_element Env.demo _
    [.obj [("method", .str "GET"), ("url", .str "http://host/a"), ("headers", .obj []),
        ("body", .str "")],
      .obj [("method", .num "7")]]
    (by rfl)
    ⟨.obj [("method", .num "7")], by simp, by rfl⟩).1

/-- C4, counterexample. The one element of the payload
`[{"method":"GET","url":"http://host/b","body":""}]` has no `headers` key; its
`Headers` field stays `nil`, and `Client` does not treat `nil` as an empty mapping: the
type assertion on it panics, and no request is sent. -/
theorem Client_absent_headers_panics :
    parsePayload Env.demo "[\x7b\"method\":\"GET\",\"url\":\"http://host/b\",\"body\":\"\"\x7d]" =
        some (.ok [⟨"GET", "http://host/b", .nil, ""⟩]) ∧
      (Client Env.demo "GET" "http://host/b" .nil "").ret = .panic .typeAssertion ∧
      (Client Env.demo "GET" "http://host/b" .nil "").sent = none :=
  ⟨rfl, rfl, rfl⟩

/-- C4, amended. A request element with no `headers` key, decoded into a fresh struct,
has `nil` for its headers. `Client` does not treat `nil` as an empty mapping: when the
request can be constructed, the type assertion of the header application panics and no
request is sent. It is the empty object `{}` for which `Client` applies no header and
does not fail at header application. -/
theorem Client_nil_headers (env : Env) (method url body : String)
    (hreq : env.newRequestError method url = false) :
    (∀ ms : List (String × JSON), (∀ m ∈ ms, fieldOf m.1 ≠ some .Headers) →
      (unmarshal env (.obj ms) RequestSchema.zero).1.Headers = .nil) ∧
    (Client env method url .nil body).ret = .panic .typeAssertion ∧
    (Client env method url .nil body).sent = none ∧
    (Client env method url (.map []) body).sent =
      some ⟨if method = "" then "GET" else method, url, [], body⟩ := by
  refine ⟨fun ms hms => ?_, ?_, ?_, ?_⟩
  · simp only [unmarshal]
    exact foldl_storeMember_headers env ms _ hms
  · simp only [Client, NewRequest, hreq, applyHeaders]; rfl
  · simp only [Client, NewRequest, hreq, applyHeaders]; rfl
  · have : env.rangeOrder [] = [] := List.Perm.eq_nil (env.rangeOrder_perm [])
    simp only [Client, NewRequest, hreq, applyHeaders, this, setHeaders]; rfl

/-- C4, amended, in the demo environment. -/
theorem Client_nil_headers_witness :
    (Client Env.demo "GET" "http://host/b" .nil "").ret = .panic .typeAssertion ∧
      (Client Env.demo "GET" "http://host/b" (.map []) "").sent =
        some ⟨"GET", "http://host/b", [], ""⟩ :=
  ⟨(Client_nil_headers Env.demo "GET" "http://host/b" "" rfl).2.1,
    (Client_nil_headers Env.demo "GET" "http://host/b" "" rfl).2.2.2⟩

/-- C5, counterexample. The names `x-a` and `X-A` are two entries of the mapping and one
header, `X-A`: after `Client` has set both, the value under `x-a` is `2`, not `1`; and no
header at all gives `1` for `x-a` and `2` for `X-A`. -/
theorem Client_headers_collide :
    (Client Env.demo "GET" "http://host/b"
        (.map [("x-a", .string "1"), ("X-A", .string "2")]) "").sent =
      some ⟨"GET", "http://host/b", [("X-A", ["2"])], ""⟩ ∧
    Header.Get [("X-A", ["2"])] "x-a" = "2" ∧
    ¬ ∃ h : Header, Header.Get h "x-a" = "1" ∧ Header.Get h "X-A" = "2" := by
  refine ⟨by rfl, by rfl, ?_⟩
  rintro ⟨h, h1, h2⟩
  have hc : CanonicalMIMEHeaderKey "x-a" = CanonicalMIMEHeaderKey "X-A" := by rfl
  unfold Header.Get at h1 h2
  rw [hc] at h1
  rw [h1] at h2
  exact absurd h2 (by decide)

/-- C5, amended. For every Request Specification whose headers mapping has only string
values, whose header names stay distinct under canonicalisation, and whose request can be
constructed: the header loop does not panic whatever the header held before, and after
it the header holds, for every entry (name, value) of the mapping, exactly `value` under
the canonical form of `name`, replacing any value that name had before; this is the
header of the request `Client` sends. -/
theorem Client_sets_headers (env : Env) (method url body : String)
    (m : List (String × GoValue))
    (hreq : env.newRequestError method url = false)
    (hstr : ∀ kv ∈ m, ∃ s, kv.2 = GoValue.string s)
    (hnd : (m.map fun kv => CanonicalMIMEHeaderKey kv.1).Nodup) :
    (∀ h₀ : Header, ∃ h, applyHeaders env (.map m) h₀ = .ok h ∧
      ∀ k s, (k, GoValue.string s) ∈ m →
        h.lookup (CanonicalMIMEHeaderKey k) = some [s] ∧ Header.Get h k = s) ∧
    ∃ req, (Client env method url (.map m) body).sent = some req ∧
      ∀ k s, (k, GoValue.string s) ∈ m →
        req.Header.lookup (CanonicalMIMEHeaderKey k) = some [s] ∧ Header.Get req.Header k = s := by
  have hperm := env.rangeOrder_perm m
  have key : ∀ h₀ : Header, ∃ h, applyHeaders env (.map m) h₀ = .ok h ∧
      ∀ k s, (k, GoValue.string s) ∈ m →
        h.lookup (CanonicalMIMEHeaderKey k) = some [s] ∧ Header.Get h k = s := by
    intro h₀
    obtain ⟨h, hset, hin, -⟩ := setHeaders_strings (env.rangeOrder m) h₀
      (fun kv hkv => hstr kv (hperm.mem_iff.1 hkv))
      ((hperm.map _).nodup_iff.2 hnd)
    refine ⟨h, hset, fun k s hmem => ?_⟩
    have := hin k s (hperm.mem_iff.2 hmem)
    exact ⟨this, by simp only [Header.Get, this]⟩
  refine ⟨key, ?_⟩
  obtain ⟨h, hset, hin⟩ := key []
  refine ⟨⟨if method = "" then "GET" else method, url, h, body⟩, ?_, hin⟩
  simp only [Client, NewRequest, hreq, Bool.false_eq_true, if_false, hset]

/-- C5, amended, in the demo environment. -/
theorem Client_sets_headers_witness :
    ∃ req, (Client Env.demo "POST" "http://host/b"
        (.map [("x-token", .string "1"), ("Accept", .string "text/plain")]) "hi").sent =
          some req ∧
      ∀ k s, (k, GoValue.string s) ∈
          [("x-token", GoValue.string "1"), ("Accept", GoValue.string "text/plain")] →
        req.Header.lookup (CanonicalMIMEHeaderKey k) = some [s] ∧ Header.Get req.Header k = s :=
  (Client_sets_headers Env.demo "POST" "http://host/b" "hi"
    [("x-token", .string "1"), ("Accept", .string "text/plain")] rfl
    (by
      intro kv hkv
      simp only [List.mem_cons, List.mem_singleton, List.not_mem_nil, or_false] at hkv
      rcases hkv with rfl | rfl
      · exact ⟨_, rfl⟩
      · exact ⟨_, rfl⟩)
    (by decide)).2

/-- C6, counterexample. With a method that `http.NewRequest` rejects, `Client` returns
the error of the construction; the header application, with its non-string value, is
never reached. -/
theorem Client_fails_before_headers :
    Env.demo.newRequestError "BAD METHOD" "http://host/b" = true ∧
      (Client Env.demo "BAD METHOD" "http://host/b" (.map [("X", .float64 "1")]) "").ret =
        .ok (.error .newRequest) ∧
      (Client Env.demo "BAD METHOD" "http://host/b" (.map [("X", .float64 "1")]) "").sent =
        none :=
  ⟨rfl, rfl, rfl⟩

/-- C6, amended. For every Request Specification whose headers mapping contains a value
that is not a string, `Client` fails and no HTTP request is sent; when the request can be
constructed, it fails during header application, by the panic of the type assertion,
which `Request` passes on; otherwise it fails before, with the error of the
construction. -/
theorem Client_non_string_header (env : Env) (method url body : String)
    (m : List (String × GoValue))
    (hbad : ∃ kv ∈ m, ∀ s, kv.2 ≠ GoValue.string s) :
    (Client env method url (.map m) body).sent = none ∧
    (∀ resp, (Client env method url (.map m) body).ret ≠ .ok (.ok resp)) ∧
    (env.newRequestError method url = false →
      (Client env method url (.map m) body).ret = .panic .typeAssertion ∧
      Request env method url (.map m) body = .panic .typeAssertion) ∧
    (env.newRequestError method url = true →
      (Client env method url (.map m) body).ret = .ok (.error .newRequest)) := by
  have hperm := env.rangeOrder_perm m
  have hset : ∀ h₀, applyHeaders env (.map m) h₀ = .panic .typeAssertion := by
    intro h₀
    obtain ⟨kv, hmem, hkv⟩ := hbad
    exact setHeaders_non_string _ ⟨kv, hperm.mem_iff.2 hmem, hkv⟩ h₀
  cases hreq : env.newRequestError method url with
  | true =>
    have hc : Client env method url (.map m) body = ⟨none, .ok (.error .newRequest)⟩ := by
      simp only [Client, NewRequest, hreq, if_true]
    rw [hc]
    refine ⟨rfl, ?_, ?_, fun _ => rfl⟩
    · intro resp h
      cases h
    · intro h
      cases h
  | false =>
    have hc : Client env method url (.map m) body = ⟨none, .panic .typeAssertion⟩ := by
      simp only [Client, NewRequest, hreq, Bool.false_eq_true, if_false, hset]
    have hr : Request env method url (.map m) body = .panic .typeAssertion := by
      simp only [Request, hc]
    rw [hc]
    refine ⟨rfl, ?_, fun _ => ⟨rfl, hr⟩, ?_⟩
    · intro resp h
      cases h
    · intro h
      cases h

/-- C6, amended, in the demo environment. -/
theorem Client_non_string_header_witness :
    (Client Env.demo "GET" "http://host/b"
        (.map [("X", .string "1"), ("Y", .float64 "2")]) "").sent = none ∧
      (Client Env.demo "GET" "http://host/b"
        (.map [("X", .string "1"), ("Y", .float64 "2")]) "").ret = .panic .typeAssertion :=
  have h := Client_non_string_header Env.demo "GET" "http://host/b" ""
    [("X", .string "1"), ("Y", .float64 "2")]
    ⟨("Y", .float64 "2"), by simp, fun s h => by cases h⟩
  ⟨h.1, (h.2.2.1 rfl).1⟩

/-- C7. For every response handled by `Request`: if the response declares
`Content-Encoding: gzip` and its body is the gzip compression of a payload P (the gzip
reader accepts it and reads P from it), the body printed is exactly P; if the
`Content-Encoding` header is absent or has any other value, the body printed is the
response body as it is. `fmt.Println` writes the body followed by a newline. -/
theorem Request_prints_body (env : Env) (method url : String) (headers : GoValue)
    (body : String) (resp : Response)
    (hresp : (Client env method url headers body).ret = .ok (.ok resp)) :
    (∀ P, Header.Get resp.Header "Content-Encoding" = "gzip" →
      env.gzipNewReader resp.Body = true → env.gzipReadAll resp.Body = .ok P →
      Request env method url headers body = .ok P) ∧
    (Header.Get resp.Header "Content-Encoding" ≠ "gzip" → resp.Body.err = none →
      Request env method url headers body = .ok resp.Body.data) ∧
    (∀ P, println P = P ++ [10]) := by
  refine ⟨fun P hgz hnew hread => ?_, fun hgz herr => ?_, fun _ => rfl⟩
  · simp only [Request, hresp, handleResponse, hgz, if_true, hnew, hread]
  · simp only [Request, hresp, handleResponse, hgz, if_false, readAll, herr]

/-- C7, in the demo environment: the gzip-encoded answer of `http://host/a` is printed
decompressed, the plain answer of `http://host/b` as it is. -/
theorem Request_prints_body_witness :
    Request Env.demo "GET" "http://host/a" (.map []) "" = .ok [104, 105] ∧
      Request Env.demo "GET" "http://host/b" (.map []) "" = .ok [111, 107] :=
  ⟨(Request_prints_body Env.demo "GET" "http://host/a" (.map []) ""
      ⟨[("Content-Encoding", ["gzip"])], ⟨[31, 139, 104, 105], none⟩⟩ rfl).1
      [104, 105] (by rfl) (by rfl) (by rfl),
    (Request_prints_body Env.demo "GET" "http://host/b" (.map []) ""
      ⟨[], ⟨[111, 107], none⟩⟩ rfl).2.1 (by decide) rfl⟩

/-- C8. For every batch of N requests and every state a run of `main` can be in: no more
than N exchanges have been launched; an exchange that has returned or has panicked has
called `wg.Done()` exactly once, and none has called it more than once; when `wg.Wait()`
has returned, exactly the N exchanges of the batch have been launched, in order, and each
of them has called `wg.Done()` exactly once; once the loop is over and every exchange has
made its call, `wg.Wait()` does return; for N = 0 nothing is launched or printed, the
process is not aborted, and `wg.Wait()` returns at once. -/
theorem join_after_all_done (env : Env) (requests : List RequestSchema) (s : Proc)
    (h : Reachable env (Proc.start requests) s) :
    s.routines.length ≤ requests.length ∧
    (∀ r ∈ s.routines, r.doneCalls ≤ 1 ∧ (r.phase ≠ .started → r.doneCalls = 1)) ∧
    (s.status = .exited →
      s.routines.map (fun r => r.request) = requests ∧
      ∀ r ∈ s.routines, r.doneCalls = 1 ∧ r.phase ≠ .started) ∧
    (s.status = .running → s.pc = .wait → (∀ r ∈ s.routines, r.phase ≠ .started) →
      Step env s { s with status := .exited }) ∧
    (requests = [] → s.routines = [] ∧ s.stdout = [] ∧ ∀ p, s.status ≠ .crashed p) ∧
    Reachable env (Proc.start []) ⟨.exited, .wait, [], [], 0, []⟩ := by
  have inv := Inv.reachable h
  refine ⟨?_, ?_, ?_, ?_, ?_, ?_⟩
  · have := congrArg List.length inv.launched
    simp only [List.length_append, List.length_map] at this
    omega
  · intro r hr
    rw [inv.calls r hr]
    refine ⟨?_, fun hns => if_neg hns⟩
    split <;> omega
  · intro hex
    obtain ⟨hpc, hwg⟩ := inv.joined hex
    have hpend := inv.waiting hpc
    have hl := inv.launched
    rw [hpend, List.append_nil] at hl
    refine ⟨hl, fun r hr => ?_⟩
    have hcount : s.routines.countP (fun r => decide (r.phase = .started)) = 0 := by
      have := inv.counter
      rw [hwg] at this
      exact_mod_cast this.symm
    have hns : r.phase ≠ .started := by
      intro hph
      have := List.countP_eq_zero.1 hcount r hr
      simp [hph] at this
    exact ⟨by rw [inv.calls r hr, if_neg hns], hns⟩
  · intro hst hpc hall
    refine .join s hst hpc ?_
    have hcount : s.routines.countP (fun r => decide (r.phase = .started)) = 0 :=
      List.countP_eq_zero.2 (fun r hr => by simpa using hall r hr)
    rw [inv.counter, hcount]
    rfl
  · rintro rfl
    exact h.empty_batch
  · exact .step _ _ (.step _ _ .refl (.loopEnd (Proc.start []) rfl rfl rfl))
      (.join ⟨.running, .wait, [], [], 0, []⟩ rfl rfl rfl)

/-- C8, on a run of a batch of one request in the demo environment: launch, end of the
loop, the exchange prints its body and makes its call of `wg.Done()`, `wg.Wait()`
returns. -/
theorem join_after_all_done_witness :
    ∃ s, Reachable Env.demo (Proc.start [⟨"GET", "http://host/b", .map [], ""⟩]) s ∧
      s.status = .exited ∧ s.stdout = [[111, 107, 10]] ∧
      s.routines.map (fun r => r.request) = [⟨"GET", "http://host/b", .map [], ""⟩] ∧
      ∀ r ∈ s.routines, r.doneCalls = 1 ∧ r.phase ≠ .started :=
  have hrun : Reachable Env.demo (Proc.start [⟨"GET", "http://host/b", .map [], ""⟩])
      ⟨.exited, .wait, [], [⟨⟨"GET", "http://host/b", .map [], ""⟩, .returned, 1⟩], 0,
        [[111, 107, 10]]⟩ :=
    .step _ _ (.step _ _ (.step _ _ (.step _ _ .refl
      (.launch (Proc.start [⟨"GET", "http://host/b", .map [], ""⟩]) _ [] rfl rfl rfl))
      (.loopEnd ⟨.running, .loop, [], [⟨⟨"GET", "http://host/b", .map [], ""⟩, .started, 0⟩],
        1, []⟩ rfl rfl rfl))
      (.finish ⟨.running, .wait, [], [⟨⟨"GET", "http://host/b", .map [], ""⟩, .started, 0⟩],
        1, []⟩ 0 ⟨⟨"GET", "http://host/b", .map [], ""⟩, .started, 0⟩ [111, 107]
        rfl rfl rfl rfl))
      (.join ⟨.running, .wait, [], [⟨⟨"GET", "http://host/b", .map [], ""⟩, .returned, 1⟩],
        0, [[111, 107, 10]]⟩ rfl rfl rfl)
  ⟨_, hrun, rfl, rfl, (join_after_all_done Env.demo _ _ hrun).2.2.1 rfl⟩

/-- C9, counterexample. A batch of two in the demo environment: the first exchange has
no headers and panics, the second would print its body. In the run in which the first
exchange is the one to act after the launches, the process is aborted with the panic of
the first; the second exchange is still at work, nothing has been printed, and nothing
more can happen. -/
theorem panic_aborts_batch :
    ∃ s, Reachable Env.demo
          (Proc.start [⟨"GET", "http://host/a", .nil, ""⟩,
            ⟨"GET", "http://host/b", .map [], ""⟩]) s ∧
      s.status = .crashed .typeAssertion ∧ s.stdout = [] ∧
      (∃ r, s.routines.get? 1 = some r ∧ r.phase = .started ∧
        r.run Env.demo = .ok [111, 107]) ∧
      ∀ t, ¬ Step Env.demo s t := by
  refine ⟨⟨.crashed .typeAssertion, .loop, [],
    [⟨⟨"GET", "http://host/a", .nil, ""⟩, .panicking .typeAssertion, 1⟩,
      ⟨⟨"GET", "http://host/b", .map [], ""⟩, .started, 0⟩], 1, []⟩, ?_, rfl, rfl,
    ⟨_, rfl, rfl, rfl⟩, fun t ht => by cases ht.running⟩
  exact .step _ _ (.step _ _ (.step _ _ (.step _ _ .refl
    (.launch (Proc.start [⟨"GET", "http://host/a", .nil, ""⟩,
      ⟨"GET", "http://host/b", .map [], ""⟩]) _ _ rfl rfl rfl))
    (.launch ⟨.running, .loop, [⟨"GET", "http://host/b", .map [], ""⟩],
      [⟨⟨"GET", "http://host/a", .nil, ""⟩, .started, 0⟩], 1, []⟩ _ _ rfl rfl rfl))
    (.fail ⟨.running, .loop, [],
      [⟨⟨"GET", "http://host/a", .nil, ""⟩, .started, 0⟩,
        ⟨⟨"GET", "http://host/b", .map [], ""⟩, .started, 0⟩], 2, []⟩ 0
      ⟨⟨"GET", "http://host/a", .nil, ""⟩, .started, 0⟩ .typeAssertion rfl rfl rfl rfl))
    (.abort ⟨.running, .loop, [],
      [⟨⟨"GET", "http://host/a", .nil, ""⟩, .panicking .typeAssertion, 1⟩,
        ⟨⟨"GET", "http://host/b", .map [], ""⟩, .started, 0⟩], 1, []⟩ 0
      ⟨⟨"GET", "http://host/a", .nil, ""⟩, .panicking .typeAssertion, 1⟩ .typeAssertion
      rfl rfl rfl)

/-- C9, amended. For every batch in which an exchange fails, the failure is not confined
to that exchange: the exchange still signals its completion through the deferred
`wg.Done()`, but its panic is not recovered and aborts the process; from the state in
which the exchange is about to fail there is a run into the abort in which nothing more
is printed, and after the abort no exchange takes another step. -/
theorem panic_aborts_process (env : Env) (requests : List RequestSchema) (s : Proc)
    (i : Nat) (r : Routine) (p : PanicValue)
    (h : Reachable env (Proc.start requests) s)
    (hst : s.status = .running) (hget : s.routines.get? i = some r)
    (hph : r.phase = .started) (hrun : r.run env = .panic p) :
    ∃ t, Reachable env (Proc.start requests) t ∧ t.status = .crashed p ∧
      t.stdout = s.stdout ∧
      (∃ r', t.routines.get? i = some r' ∧ r'.request = r.request ∧ r'.doneCalls = 1) ∧
      ∀ u, ¬ Step env t u := by
  have inv := Inv.reachable h
  have hcalls := inv.calls r (List.get?_mem hget)
  rw [if_pos hph] at hcalls
  have hlt : i < s.routines.length := by
    rcases Nat.lt_or_ge i s.routines.length with hlt | hge
    · exact hlt
    · rw [List.get?_eq_none.2 hge] at hget; cases hget
  have hget' : (s.routines.set i
      { r with phase := .panicking p, doneCalls := r.doneCalls + 1 }).get? i =
      some { r with phase := .panicking p, doneCalls := r.doneCalls + 1 } := by
    simp [List.getElem?_set, hlt]
  refine ⟨_, .step _ _ (.step _ _ h (.fail s i r p hst hget hph hrun))
    (.abort _ i _ p hst hget' rfl), rfl, rfl, ⟨_, hget', rfl, by simp [hcalls]⟩,
    fun u hu => by cases hu.running⟩

/-- C9, amended, on the batch of the counterexample, right after the two launches. -/
theorem panic_aborts_process_witness :
    ∃ t, Reachable Env.demo
          (Proc.start [⟨"GET", "http://host/a", .nil, ""⟩,
            ⟨"GET", "http://host/b", .map [], ""⟩]) t ∧
      t.status = .crashed .typeAssertion ∧ t.stdout = [] ∧
      (∃ r', t.routines.get? 0 = some r' ∧
        r'.request = (⟨"GET", "http://host/a", .nil, ""⟩ : RequestSchema) ∧
        r'.doneCalls = 1) ∧
      ∀ u, ¬ Step Env.demo t u :=
  panic_aborts_process Env.demo _
    ⟨.running, .loop, [],
      [⟨⟨"GET", "http://host/a", .nil, ""⟩, .started, 0⟩,
        ⟨⟨"GET", "http://host/b", .map [], ""⟩, .started, 0⟩], 2, []⟩ 0
    ⟨⟨"GET", "http://host/a", .nil, ""⟩, .started, 0⟩ .typeAssertion
    (.step _ _ (.step _ _ .refl
      (.launch (Proc.start [⟨"GET", "http://host/a", .nil, ""⟩,
        ⟨"GET", "http://host/b", .map [], ""⟩]) _ _ rfl rfl rfl))
      (.launch ⟨.running, .loop, [⟨"GET", "http://host/b", .map [], ""⟩],
        [⟨⟨"GET", "http://host/a", .nil, ""⟩, .started, 0⟩], 1, []⟩ _ _ rfl rfl rfl))
    rfl rfl rfl rfl

end HttpClient
